import Mathlib

/-!
Verification of the mce-sandbox prime sieve (Xuedong Luo "Algorithm 3",
parallel segmented variant).

Shallow embedding of the C/Perl sources:
  * the OpenMP C demonstration (`practicalsieve`, count/print driver);
  * `src/algorithm3.c` (`practicalsieve_precalc`, `practicalsieve`);
  * `lib/Sandbox.pm` (`check_numbers`).

Machine integers are modelled by `Nat`: every `int64_t` quantity of the
source stays far below `2^63` on the validated input range, and the one
place where `uint64_t` wrap-around is semantically relevant (the segment
`high` bound computation) carries an explicit `% 2^64`.  Byte arrays with
the LSB-first bit macros `GETBIT`/`CLRBIT` are modelled as bit-indexed
functions `Nat → Bool`; `memset(0xff)` becomes the constant-true function,
a byte store `s[0] = v` sets bits `0..7` from the bits of `v`, and
`popcount(s, n)` counts the true bits among the `8*n` bit positions of the
`n` bytes.  The C `sqrt((double) n)` is modelled by `Nat.sqrt`.
-/

namespace Sandbox

/-- Integer denoted by wheel index `i` of Luo's list
`{0, 5, 7, 11, 13, ..., 3i+2, 3(i+1)+1, ...}`: `3i+2` for odd `i`,
`3i+1` for even `i` (index 0, denoting 1, is unused by the algorithm). -/
def wval (i : ℕ) : ℕ := if i % 2 = 1 then 3 * i + 2 else 3 * i + 1

/-- Wheel index of an integer `v` coprime to 6: `(v-2)/3` when
`v ≡ 5 [MOD 6]`, `(v-1)/3` when `v ≡ 1 [MOD 6]`. -/
def widx (v : ℕ) : ℕ := if v % 6 = 5 then (v - 2) / 3 else (v - 1) / 3

theorem wval_odd {i : ℕ} (h : i % 2 = 1) : wval i = 3 * i + 2 := by
  simp [wval, h]

theorem wval_even {i : ℕ} (h : i % 2 = 0) : wval i = 3 * i + 1 := by
  simp [wval, h]

theorem wval_mod6_odd {i : ℕ} (h : i % 2 = 1) : wval i % 6 = 5 := by
  rw [wval_odd h]; omega

theorem wval_mod6_even {i : ℕ} (h : i % 2 = 0) : wval i % 6 = 1 := by
  rw [wval_even h]; omega

theorem wval_mod6 (i : ℕ) : wval i % 6 = 5 ∨ wval i % 6 = 1 := by
  rcases Nat.mod_two_eq_zero_or_one i with h | h
  · exact Or.inr (wval_mod6_even h)
  · exact Or.inl (wval_mod6_odd h)

theorem widx_wval (i : ℕ) : widx (wval i) = i := by
  rcases Nat.mod_two_eq_zero_or_one i with h | h
  · rw [wval_even h, widx, if_neg (by omega : ¬ (3 * i + 1) % 6 = 5)]
    omega
  · rw [wval_odd h, widx, if_pos (by omega : (3 * i + 2) % 6 = 5)]
    omega

theorem wval_widx {v : ℕ} (h : v % 6 = 5 ∨ v % 6 = 1) : wval (widx v) = v := by
  rcases h with h | h
  · have hv : widx v = (v - 2) / 3 := by simp [widx, h]
    have hodd : widx v % 2 = 1 := by omega
    rw [wval_odd hodd, hv]; omega
  · have h1 : v ≥ 1 := by omega
    have hv : widx v = (v - 1) / 3 := by
      simp [widx]; omega
    have heven : widx v % 2 = 0 := by omega
    rw [wval_even heven, hv]; omega

theorem wval_lt_wval {i j : ℕ} (h : i < j) : wval i < wval j := by
  unfold wval
  rcases Nat.mod_two_eq_zero_or_one i with hi | hi <;>
    rcases Nat.mod_two_eq_zero_or_one j with hj | hj <;>
      simp [hi, hj] <;> omega

theorem wval_le_wval {i j : ℕ} (h : i ≤ j) : wval i ≤ wval j := by
  rcases Nat.lt_or_ge i j with h' | h'
  · exact Nat.le_of_lt (wval_lt_wval h')
  · have : i = j := by omega
    subst this; exact Nat.le_refl _

theorem wval_inj {i j : ℕ} (h : wval i = wval j) : i = j := by
  rcases Nat.lt_trichotomy i j with h' | h' | h'
  · exact absurd h (Nat.ne_of_lt (wval_lt_wval h'))
  · exact h'
  · exact absurd h.symm (Nat.ne_of_lt (wval_lt_wval h'))

theorem widx_le_widx {u v : ℕ} (hu : u % 6 = 5 ∨ u % 6 = 1)
    (hv : v % 6 = 5 ∨ v % 6 = 1) (h : u ≤ v) : widx u ≤ widx v := by
  by_contra hlt
  have h2 : widx v < widx u := by omega
  have := wval_lt_wval h2
  rw [wval_widx hu, wval_widx hv] at this
  omega

theorem wval_pos (i : ℕ) : 1 ≤ wval i := by
  unfold wval; split <;> omega

theorem one_le_widx {v : ℕ} (h : 5 ≤ v) : 1 ≤ widx v := by
  unfold widx; split <;> omega

theorem five_le_wval {i : ℕ} (h : 1 ≤ i) : 5 ≤ wval i := by
  have := wval_lt_wval (show 0 < i from h)
  have : wval 0 = 1 := rfl
  unfold wval; split <;> omega

theorem wval_not_two_dvd (i : ℕ) : ¬ 2 ∣ wval i := by
  rcases wval_mod6 i with h | h <;> omega

theorem wval_not_three_dvd (i : ℕ) : ¬ 3 ∣ wval i := by
  rcases wval_mod6 i with h | h <;> omega

theorem mod6_of_coprime6 {v : ℕ} (h2 : ¬ 2 ∣ v) (h3 : ¬ 3 ∣ v) :
    v % 6 = 5 ∨ v % 6 = 1 := by
  omega

/-- Shifting a wheel index by an even amount shifts the integer denoted by
three times that amount (the wheel has period 2 in indices, 6 in values). -/
theorem wval_add_two_mul (i a : ℕ) : wval (i + 2 * a) = wval i + 6 * a := by
  unfold wval
  rcases Nat.mod_two_eq_zero_or_one i with h | h <;>
    · have : (i + 2 * a) % 2 = i % 2 := by omega
      simp [this, h]; omega

theorem widx_add_six_mul {v : ℕ} (h : v % 6 = 5 ∨ v % 6 = 1) (a : ℕ) :
    widx (v + 6 * a) = widx v + 2 * a := by
  have h6 : (v + 6 * a) % 6 = v % 6 := by omega
  unfold widx
  rcases h with h | h <;> simp [h6, h] <;> omega

/-- A product of two integers coprime to 6 is coprime to 6. -/
theorem mul_mod6 {u v : ℕ} (hu : u % 6 = 5 ∨ u % 6 = 1)
    (hv : v % 6 = 5 ∨ v % 6 = 1) : u * v % 6 = 5 ∨ u * v % 6 = 1 := by
  have hu2 : u % 2 = 1 := by omega
  have hv2 : v % 2 = 1 := by omega
  have hu3 : u % 3 = 1 ∨ u % 3 = 2 := by omega
  have hv3 : v % 3 = 1 ∨ v % 3 = 2 := by omega
  have h2 : u * v % 2 = 1 := by rw [Nat.mul_mod, hu2, hv2]
  have h3 : u * v % 3 ≠ 0 := by
    rw [Nat.mul_mod]
    rcases hu3 with h | h <;> rcases hv3 with h' | h' <;> rw [h, h'] <;> decide
  omega

/-!
Luo recurrence.  All sieve loops of the source maintain a state
`(c, k, t)` updated per index `i` by `k = 3-k, c += 4*k*i, t += 4*k`,
with per-iteration values `j = c` and `ij = 2*i*(3-k)+1`.  We give the
update function verbatim and closed forms for the state after the update
of iteration `i`.
-/

/-- One iteration of the Luo state update, mirroring
`k = 3 - k, c += 4 * k * i; ij = 2 * i * (3 - k) + 1, t += 4 * k` (the
value of `k` used is the updated one).  Returns the new `(c, k, t)` and
the iteration's starting gap `ij`. -/
def luoUpd (st : ℕ × ℕ × ℕ) (i : ℕ) : (ℕ × ℕ × ℕ) × ℕ :=
  let k := 3 - st.2.1
  let c := st.1 + 4 * k * i
  let ij := 2 * i * (3 - k) + 1
  let t := st.2.2 + 4 * k
  ((c, k, t), ij)

/-- Closed form of `c` after the update of iteration `i`:
the wheel index of `(wval i)^2`. -/
def luoC (i : ℕ) : ℕ := if i % 2 = 1 then 3 * i * i + 4 * i + 1 else 3 * i * i + 2 * i

/-- Closed form of `k` after the update of iteration `i`. -/
def luoK (i : ℕ) : ℕ := if i % 2 = 1 then 2 else 1

/-- Closed form of `t` after the update of iteration `i`: `2 * wval i`,
the index-distance corresponding to a value-distance of `6 * wval i`. -/
def luoT (i : ℕ) : ℕ := 2 * wval i

/-- Closed form of the gap `ij` produced by iteration `i`. -/
def luoIJ (i : ℕ) : ℕ := if i % 2 = 1 then 2 * i + 1 else 4 * i + 1

theorem luoC_zero : luoC 0 = 0 := rfl

theorem luoK_zero : luoK 0 = 1 := rfl

theorem luoT_zero : luoT 0 = 2 := rfl

/-- The Luo update sends the closed-form state at `i` to the closed-form
state at `i+1` and produces the closed-form gap at `i+1`. -/
theorem luoUpd_closed (i : ℕ) :
    luoUpd (luoC i, luoK i, luoT i) (i + 1) =
      ((luoC (i + 1), luoK (i + 1), luoT (i + 1)), luoIJ (i + 1)) := by
  rcases Nat.mod_two_eq_zero_or_one i with h | h
  · have h' : (i + 1) % 2 = 1 := by omega
    simp only [luoUpd, luoC, luoK, luoT, luoIJ, wval, h, h']
    norm_num
    exact ⟨by ring, by ring⟩
  · have h' : (i + 1) % 2 = 0 := by omega
    simp only [luoUpd, luoC, luoK, luoT, luoIJ, wval, h, h']
    norm_num
    exact ⟨⟨by ring, by ring⟩, by ring⟩

theorem luoC_eq_widx_sq (i : ℕ) : luoC i = widx (wval i * wval i) := by
  rcases Nat.mod_two_eq_zero_or_one i with h | h
  · have hexp : (3 * i + 1) * (3 * i + 1) = 3 * (3 * i * i + 2 * i) + 1 := by ring
    rw [luoC, wval_even h, widx,
      if_neg (show ¬ i % 2 = 1 by omega),
      if_neg (show ¬ (3 * i + 1) * (3 * i + 1) % 6 = 5 by omega)]
    omega
  · have hexp : (3 * i + 2) * (3 * i + 2) = 3 * (3 * i * i + 4 * i + 1) + 1 := by ring
    rw [luoC, wval_odd h, widx,
      if_pos (show i % 2 = 1 from h),
      if_neg (show ¬ (3 * i + 2) * (3 * i + 2) % 6 = 5 by omega)]
    omega

/-- Index gap from `p^2` to `p * (next wheel value after p)` is `luoIJ`. -/
theorem widx_mul_succ (i : ℕ) :
    widx (wval i * wval (i + 1)) = luoC i + luoIJ i := by
  rcases Nat.mod_two_eq_zero_or_one i with h | h
  · have h1 : (i + 1) % 2 = 1 := by omega
    have hii : 3 * i * i % 2 = 0 := by
      rw [Nat.mul_mod, h]
      simp
    have hexp : (3 * i + 1) * (3 * (i + 1) + 2) =
        3 * (3 * i * i) + 18 * i + 5 := by ring
    rw [wval_even h, wval_odd h1, widx, luoC, luoIJ,
      if_pos (show (3 * i + 1) * (3 * (i + 1) + 2) % 6 = 5 by omega),
      if_neg (show ¬ i % 2 = 1 by omega),
      if_neg (show ¬ i % 2 = 1 by omega)]
    omega
  · have h1 : (i + 1) % 2 = 0 := by omega
    have hii : 3 * i * i % 2 = 1 := by
      rw [Nat.mul_mod, h, Nat.mul_mod 3 i, h]
    have hexp : (3 * i + 2) * (3 * (i + 1) + 1) =
        3 * (3 * i * i) + 18 * i + 8 := by ring
    rw [wval_odd h, wval_even h1, widx, luoC, luoIJ,
      if_pos (show (3 * i + 2) * (3 * (i + 1) + 1) % 6 = 5 by omega),
      if_pos (show i % 2 = 1 from h),
      if_pos (show i % 2 = 1 from h)]
    omega

theorem luoIJ_pos (i : ℕ) : 1 ≤ luoIJ i := by
  unfold luoIJ; split <;> omega

theorem luoIJ_lt_luoT (i : ℕ) : luoIJ i < luoT i := by
  unfold luoIJ luoT wval; split <;> omega

/-!
The composite walk.  For the prime at wheel index `i`, the walk visits the
wheel indices of `wval i * m` for `m` running over successive wheel values
from `wval i` upward; step `n` of the walk sits at index
`widx (wval i * wval (i + n))`.
-/

/-- Position of the `n`-th element of the composite walk of wheel index
`i`. -/
def walkPos (i n : ℕ) : ℕ := widx (wval i * wval (i + n))

/-- Gap of the walk after `n` steps: the alternation `ij, t - ij, ij, ...`. -/
def wij (i n : ℕ) : ℕ := if n % 2 = 0 then luoIJ i else luoT i - luoIJ i

theorem walkPos_zero (i : ℕ) : walkPos i 0 = luoC i := by
  rw [walkPos, Nat.add_zero, luoC_eq_widx_sq]

theorem wval_mul_mod6 (i j : ℕ) : wval i * wval j % 6 = 5 ∨ wval i * wval j % 6 = 1 :=
  mul_mod6 (wval_mod6 i) (wval_mod6 j)

theorem walkPos_even (i a : ℕ) : walkPos i (2 * a) = luoC i + a * luoT i := by
  have hd : wval i * (wval i + 6 * a) = wval i * wval i + 6 * (wval i * a) := by ring
  rw [walkPos, wval_add_two_mul, hd,
    widx_add_six_mul (wval_mul_mod6 i i) (wval i * a), ← luoC_eq_widx_sq, luoT]
  ring

theorem walkPos_odd (i a : ℕ) :
    walkPos i (2 * a + 1) = luoC i + luoIJ i + a * luoT i := by
  have h : i + (2 * a + 1) = (i + 1) + 2 * a := by ring
  have hd : wval i * (wval (i + 1) + 6 * a) =
      wval i * wval (i + 1) + 6 * (wval i * a) := by ring
  rw [walkPos, h, wval_add_two_mul, hd,
    widx_add_six_mul (wval_mul_mod6 i (i + 1)) (wval i * a),
    widx_mul_succ, luoT]
  ring

theorem walkPos_succ (i n : ℕ) : walkPos i (n + 1) = walkPos i n + wij i n := by
  rcases Nat.mod_two_eq_zero_or_one n with h | h
  · obtain ⟨a, rfl⟩ : ∃ a, n = 2 * a := ⟨n / 2, by omega⟩
    rw [walkPos_odd, walkPos_even, wij, if_pos (by omega)]
    ring
  · obtain ⟨a, rfl⟩ : ∃ a, n = 2 * a + 1 := ⟨n / 2, by omega⟩
    rw [show 2 * a + 1 + 1 = 2 * (a + 1) from by ring, walkPos_even, walkPos_odd,
      wij, if_neg (by omega)]
    have h1 := luoIJ_lt_luoT i
    have h2 := luoIJ_pos i
    have h3 : (a + 1) * luoT i = a * luoT i + luoT i := by ring
    omega

theorem wij_pos (i n : ℕ) : 1 ≤ wij i n := by
  unfold wij
  have h1 := luoIJ_lt_luoT i
  have h2 := luoIJ_pos i
  split <;> omega

theorem wij_le_luoT (i n : ℕ) : wij i n ≤ luoT i := by
  unfold wij
  have h1 := luoIJ_lt_luoT i
  have h2 := luoIJ_pos i
  split <;> omega

theorem walkPos_lt_succ (i n : ℕ) : walkPos i n < walkPos i (n + 1) := by
  rw [walkPos_succ]
  have := wij_pos i n
  omega

theorem walkPos_lt_walkPos {i m n : ℕ} (h : m < n) : walkPos i m < walkPos i n := by
  induction n with
  | zero => omega
  | succ n ih =>
    rcases Nat.lt_or_ge m n with h' | h'
    · exact Nat.lt_trans (ih h') (walkPos_lt_succ i n)
    · obtain rfl : m = n := by omega
      exact walkPos_lt_succ i m

theorem walkPos_le_walkPos {i m n : ℕ} (h : m ≤ n) : walkPos i m ≤ walkPos i n := by
  rcases Nat.lt_or_ge m n with h' | h'
  · exact Nat.le_of_lt (walkPos_lt_walkPos h')
  · have : m = n := by omega
    subst this; exact Nat.le_refl _

/-- Membership of a wheel index `g` in the walk of index `i`:
exactly the `g` whose value is a multiple of `wval i` at least `(wval i)^2`. -/
theorem walkPos_mem_iff {i : ℕ} (hi : 1 ≤ i) (g : ℕ) :
    (∃ n, walkPos i n = g) ↔ (wval i ∣ wval g ∧ wval i * wval i ≤ wval g) := by
  constructor
  · rintro ⟨n, rfl⟩
    constructor
    · refine ⟨wval (i + n), ?_⟩
      rw [walkPos, wval_widx (wval_mul_mod6 i (i + n))]
    · rw [walkPos, wval_widx (wval_mul_mod6 i (i + n))]
      exact Nat.mul_le_mul_left _ (wval_le_wval (by omega))
  · rintro ⟨⟨m, hm⟩, hsq⟩
    have hp5 : 5 ≤ wval i := five_le_wval hi
    have hmpos : 1 ≤ m := by
      rcases Nat.eq_zero_or_pos m with h | h
      · subst h; simp at hm; have := wval_pos g; omega
      · exact h
    have hm6 : m % 6 = 5 ∨ m % 6 = 1 := by
      have h2 : ¬ 2 ∣ m := fun ⟨d, hd⟩ => wval_not_two_dvd g ⟨wval i * d, by rw [hm, hd]; ring⟩
      have h3 : ¬ 3 ∣ m := fun ⟨d, hd⟩ => wval_not_three_dvd g ⟨wval i * d, by rw [hm, hd]; ring⟩
      exact mod6_of_coprime6 h2 h3
    have hmge : wval i ≤ m := by
      by_contra hlt
      have : wval g < wval i * wval i := by
        rw [hm]
        exact mul_lt_mul_of_pos_left (show m < wval i by omega) (wval_pos i)
      omega
    have hi_le : i ≤ widx m := by
      have := widx_le_widx (wval_mod6 i) hm6 hmge
      rwa [widx_wval] at this
    refine ⟨widx m - i, ?_⟩
    rw [walkPos, show i + (widx m - i) = widx m from by omega, wval_widx hm6, ← hm,
      widx_wval]

/-!
Imperative loops of the kernels.  Bit arrays are `ℕ → Bool`; `CLRBIT`
becomes `Function.update · · false`.  The clearing loop takes an explicit
fuel argument: each iteration advances `j` by `ij ≥ 1`, so any fuel of at
least `B + 1 - j` makes the fuel irrelevant.
-/

/-- The composite-clearing loop
`while (j <= B) { CLRBIT(s, j - j_off); j += ij; ij = t - ij; }`. -/
def clearWhile : ℕ → (ℕ → Bool) → ℕ → ℕ → ℕ → ℕ → ℕ → (ℕ → Bool)
  | 0, s, _, _, _, _, _ => s
  | fuel + 1, s, joff, j, ij, t, B =>
    if j ≤ B then
      clearWhile fuel (Function.update s (j - joff) false) joff (j + ij) (t - ij) t B
    else s

/-- The skip-ahead of the source kernels:
`if (j < j_off) { j += (j_off - j) / t * t + ij; ij = t - ij;
if (j < j_off) { j += ij; ij = t - ij; } }`. -/
def skipAhead (joff j ij t : ℕ) : ℕ × ℕ :=
  if j < joff then
    let j1 := j + (joff - j) / t * t + ij
    let ij1 := t - ij
    if j1 < joff then (j1 + ij1, t - ij1) else (j1, ij1)
  else (j, ij)

/-- One full per-prime pass of a sieve loop body: skip ahead to the
segment, then clear every walk element up to `B`. -/
def sieveStep (s : ℕ → Bool) (joff B c ij t : ℕ) : ℕ → Bool :=
  let sk := skipAhead joff c ij t
  clearWhile (B + 1) s joff sk.1 sk.2 t B

/-- Wheel-index step of `wij`: `t - (t - ij) = ij` and the phase really
alternates, provided the walk state is one of `(walkPos, wij)`. -/
theorem wij_succ (i n : ℕ) : luoT i - wij i n = wij i (n + 1) := by
  have h1 := luoIJ_lt_luoT i
  have h2 := luoIJ_pos i
  rcases Nat.mod_two_eq_zero_or_one n with h | h
  · rw [wij, wij, if_pos h, if_neg (show ¬ (n + 1) % 2 = 0 by omega)]
  · rw [wij, wij, if_neg (show ¬ n % 2 = 0 by omega),
      if_pos (show (n + 1) % 2 = 0 by omega)]
    omega

/-- Pointwise description of the clearing loop started in a valid walk
state: bit `b` survives iff it was set and no walk element from step `n`
onward lands on `joff + b` within the bound `B`. -/
theorem clearWhile_char {i : ℕ} :
    ∀ (fuel n : ℕ) (s : ℕ → Bool) (joff B : ℕ),
      B + 1 ≤ fuel + walkPos i n → joff ≤ walkPos i n → ∀ b,
      (clearWhile fuel s joff (walkPos i n) (wij i n) (luoT i) B b = true ↔
        (s b = true ∧ ¬ ∃ m, n ≤ m ∧ walkPos i m = joff + b ∧ walkPos i m ≤ B)) := by
  intro fuel
  induction fuel with
  | zero =>
    intro n s joff B hfuel hge b
    simp only [clearWhile]
    constructor
    · intro hb
      refine ⟨hb, ?_⟩
      rintro ⟨m, hm, hpos, hle⟩
      have := walkPos_le_walkPos (i := i) hm
      omega
    · exact fun h => h.1
  | succ fuel ih =>
    intro n s joff B hfuel hge b
    by_cases hJ : walkPos i n ≤ B
    · rw [clearWhile, if_pos hJ]
      have hstep := walkPos_succ i n
      have hwp := wij_pos i n
      have hfuel' : B + 1 ≤ fuel + walkPos i (n + 1) := by omega
      have hge' : joff ≤ walkPos i (n + 1) := by omega
      have hrec := ih (n + 1)
        (Function.update s (walkPos i n - joff) false) joff B hfuel' hge' b
      rw [← hstep, wij_succ, hrec, Function.update_apply]
      by_cases heq : walkPos i n = joff + b
      · rw [if_pos (by omega)]
        simp only [Bool.false_eq_true, false_and, false_iff]
        rintro ⟨_, hmem⟩
        exact hmem ⟨n, Nat.le_refl n, heq, hJ⟩
      · rw [if_neg (by omega)]
        constructor
        · rintro ⟨hb, hmem⟩
          refine ⟨hb, ?_⟩
          rintro ⟨m, hm, hpos, hle⟩
          rcases Nat.eq_or_lt_of_le hm with rfl | hlt
          · exact heq hpos
          · exact hmem ⟨m, hlt, hpos, hle⟩
        · rintro ⟨hb, hmem⟩
          refine ⟨hb, ?_⟩
          rintro ⟨m, hm, hpos, hle⟩
          exact hmem ⟨m, by omega, hpos, hle⟩
    · rw [clearWhile, if_neg hJ]
      constructor
      · intro hb
        refine ⟨hb, ?_⟩
        rintro ⟨m, hm, hpos, hle⟩
        have := walkPos_le_walkPos (i := i) hm
        omega
      · exact fun h => h.1

/-- The walk step at which the skip-ahead lands. -/
def skipIdx (i joff : ℕ) : ℕ :=
  if luoC i < joff then
    (if joff ≤ walkPos i (2 * ((joff - luoC i) / luoT i) + 1)
      then 2 * ((joff - luoC i) / luoT i) + 1
      else 2 * ((joff - luoC i) / luoT i) + 2)
  else 0

/-- The skip-ahead lands exactly on walk step `skipIdx`, with the gap in
the matching phase (so subsequent steps continue the walk). -/
theorem skipAhead_eq (i joff : ℕ) :
    skipAhead joff (luoC i) (luoIJ i) (luoT i) =
      (walkPos i (skipIdx i joff), wij i (skipIdx i joff)) := by
  have hij1 := luoIJ_pos i
  have hij2 := luoIJ_lt_luoT i
  unfold skipAhead skipIdx
  by_cases hin : luoC i < joff
  · rw [if_pos hin, if_pos hin]
    set D := (joff - luoC i) / luoT i with hD
    have ho : walkPos i (2 * D + 1) = luoC i + luoIJ i + D * luoT i := walkPos_odd i D
    have hj1 : luoC i + (joff - luoC i) / luoT i * luoT i + luoIJ i =
        walkPos i (2 * D + 1) := by
      rw [ho, ← hD]; ring
    by_cases hbr : joff ≤ walkPos i (2 * D + 1)
    · rw [if_pos hbr, if_neg (by omega)]
      rw [hj1]
      have : luoT i - luoIJ i = wij i (2 * D + 1) := by
        unfold wij; rw [if_neg (by omega)]
      rw [this]
    · rw [if_neg hbr, if_pos (by omega)]
      have he : walkPos i (2 * (D + 1)) = luoC i + (D + 1) * luoT i := walkPos_even i (D + 1)
      have h2 : 2 * (D + 1) = 2 * D + 2 := by ring
      rw [hj1]
      have hw1 : luoT i - luoIJ i = wij i (2 * D + 1) := by
        unfold wij; rw [if_neg (by omega)]
      have hw2 : luoT i - (luoT i - luoIJ i) = wij i (2 * D + 2) := by
        unfold wij; rw [if_pos (by omega)]; omega
      have hpos : walkPos i (2 * D + 1) + (luoT i - luoIJ i) = walkPos i (2 * D + 2) := by
        rw [walkPos_succ i (2 * D + 1), ← hw1]
      rw [hpos, hw2]
  · rw [if_neg hin, if_neg hin]
    rw [show walkPos i 0 = luoC i from walkPos_zero i]
    rfl

theorem skipIdx_ge (i joff : ℕ) : joff ≤ walkPos i (skipIdx i joff) := by
  unfold skipIdx
  by_cases hin : luoC i < joff
  · rw [if_pos hin]
    set D := (joff - luoC i) / luoT i with hD
    by_cases hbr : joff ≤ walkPos i (2 * D + 1)
    · rwa [if_pos hbr]
    · rw [if_neg hbr]
      have he : walkPos i (2 * (D + 1)) = luoC i + (D + 1) * luoT i := walkPos_even i (D + 1)
      have h2 : (2 : ℕ) * (D + 1) = 2 * D + 2 := by ring
      rw [← h2, he]
      have ht : 1 ≤ luoT i := by
        have := luoIJ_pos i
        have := luoIJ_lt_luoT i
        omega
      have hup : joff - luoC i < (D + 1) * luoT i := by
        have hdm := Nat.div_add_mod' (joff - luoC i) (luoT i)
        have hmod : (joff - luoC i) % luoT i < luoT i := Nat.mod_lt _ ht
        have hx1 : (D + 1) * luoT i = D * luoT i + luoT i := by ring
        have hx2 : D * luoT i = (joff - luoC i) / luoT i * luoT i := by rw [hD]
        omega
      omega
  · rw [if_neg hin, walkPos_zero]
    omega

/-- Minimality of the skip-ahead landing: every earlier walk element is at
most `joff` (strictly below when `joff` is not itself phase-aligned). -/
theorem skipIdx_min (i joff : ℕ) :
    ∀ m, m < skipIdx i joff → walkPos i m ≤ joff := by
  intro m hm
  unfold skipIdx at hm
  by_cases hin : luoC i < joff
  · rw [if_pos hin] at hm
    set D := (joff - luoC i) / luoT i with hD
    have ht : 1 ≤ luoT i := by
      have := luoIJ_pos i
      have := luoIJ_lt_luoT i
      omega
    have hDle : D * luoT i ≤ joff - luoC i := Nat.div_mul_le_self _ _
    have hij2 := luoIJ_lt_luoT i
    have key : ∀ a, a ≤ D → walkPos i (2 * a) ≤ joff := by
      intro a ha
      rw [walkPos_even]
      have : a * luoT i ≤ D * luoT i := Nat.mul_le_mul_right _ ha
      omega
    by_cases hbr : joff ≤ walkPos i (2 * D + 1)
    · rw [if_pos hbr] at hm
      rcases Nat.mod_two_eq_zero_or_one m with hp | hp
      · obtain ⟨a, rfl⟩ : ∃ a, m = 2 * a := ⟨m / 2, by omega⟩
        exact key a (by omega)
      · obtain ⟨a, rfl⟩ : ∃ a, m = 2 * a + 1 := ⟨m / 2, by omega⟩
        rw [walkPos_odd]
        have ha : a + 1 ≤ D := by omega
        have : (a + 1) * luoT i ≤ D * luoT i := Nat.mul_le_mul_right _ ha
        have hexp : (a + 1) * luoT i = a * luoT i + luoT i := by ring
        omega
    · rw [if_neg hbr] at hm
      rcases Nat.mod_two_eq_zero_or_one m with hp | hp
      · obtain ⟨a, rfl⟩ : ∃ a, m = 2 * a := ⟨m / 2, by omega⟩
        exact key a (by omega)
      · obtain ⟨a, rfl⟩ : ∃ a, m = 2 * a + 1 := ⟨m / 2, by omega⟩
        have ha : a ≤ D := by omega
        have := walkPos_le_walkPos (i := i) (show 2 * a + 1 ≤ 2 * D + 1 by omega)
        omega
  · rw [if_neg hin] at hm
    omega

/-- Strict minimality when `joff - c` is not a multiple of `t`. -/
theorem skipIdx_min_strict (i joff : ℕ)
    (hr : ¬ luoT i ∣ (joff - luoC i)) :
    ∀ m, m < skipIdx i joff → walkPos i m < joff := by
  intro m hm
  have hle := skipIdx_min i joff m hm
  rcases Nat.eq_or_lt_of_le hle with heq | h
  · exfalso
    unfold skipIdx at hm
    by_cases hin : luoC i < joff
    · rw [if_pos hin] at hm
      set D := (joff - luoC i) / luoT i with hD
      have ht : 1 ≤ luoT i := by
        have := luoIJ_pos i
        have := luoIJ_lt_luoT i
        omega
      rcases Nat.mod_two_eq_zero_or_one m with hp | hp
      · obtain ⟨a, rfl⟩ : ∃ a, m = 2 * a := ⟨m / 2, by omega⟩
        rw [walkPos_even] at heq
        refine hr ⟨a, ?_⟩
        have hcomm : luoT i * a = a * luoT i := by ring
        omega
      · obtain ⟨a, rfl⟩ : ∃ a, m = 2 * a + 1 := ⟨m / 2, by omega⟩
        rw [walkPos_odd] at heq
        have hij1 := luoIJ_pos i
        have hij2 := luoIJ_lt_luoT i
        have hDle : D * luoT i ≤ joff - luoC i := Nat.div_mul_le_self _ _
        have hlt : joff - luoC i < (D + 1) * luoT i := by
          have hdm := Nat.div_add_mod' (joff - luoC i) (luoT i)
          have hmod : (joff - luoC i) % luoT i < luoT i := Nat.mod_lt _ ht
          have hx1 : (D + 1) * luoT i = D * luoT i + luoT i := by ring
          have hx2 : D * luoT i = (joff - luoC i) / luoT i * luoT i := by rw [hD]
          omega
        by_cases hbr : joff ≤ walkPos i (2 * D + 1)
        · rw [if_pos hbr] at hm
          have ha : a + 1 ≤ D := by omega
          have h1 : (a + 1) * luoT i ≤ D * luoT i := Nat.mul_le_mul_right _ ha
          have hexp : (a + 1) * luoT i = a * luoT i + luoT i := by ring
          omega
        · rw [if_neg hbr] at hm
          rw [walkPos_odd] at hbr
          have ha : a ≤ D := by omega
          have h1 : a * luoT i ≤ D * luoT i := Nat.mul_le_mul_right _ ha
          have h2 : a = D := by
            by_contra hne
            have ha' : a + 1 ≤ D := by omega
            have h3 : (a + 1) * luoT i ≤ D * luoT i := Nat.mul_le_mul_right _ ha'
            have hexp : (a + 1) * luoT i = a * luoT i + luoT i := by ring
            omega
          subst h2
          omega
    · rw [if_neg hin] at hm
      omega
  · omega

/-- Pointwise description of a full per-prime pass at wheel index `i`,
for local bits `b ≥ 1` (bit 0, the segment offset itself, may be handled
differently by the skip-ahead but is never inspected).  Bit `b` survives
iff it was set and its value is not a walk composite of `wval i` within
the bound. -/
theorem sieveStep_char {i : ℕ} (hi : 1 ≤ i) (s : ℕ → Bool) (joff B b : ℕ)
    (hb : 1 ≤ b) :
    (sieveStep s joff B (luoC i) (luoIJ i) (luoT i) b = true ↔
      (s b = true ∧ ¬ (wval i ∣ wval (joff + b) ∧
        wval i * wval i ≤ wval (joff + b) ∧ joff + b ≤ B))) := by
  unfold sieveStep
  rw [skipAhead_eq]
  have hge := skipIdx_ge i joff
  have hchar := clearWhile_char (i := i) (B + 1) (skipIdx i joff) s joff B
    (by omega) hge b
  rw [hchar]
  constructor
  · rintro ⟨hb1, hmem⟩
    refine ⟨hb1, ?_⟩
    rintro ⟨hdvd, hsq, hle⟩
    obtain ⟨m, hmpos⟩ := (walkPos_mem_iff hi (joff + b)).mpr ⟨hdvd, hsq⟩
    have hmn : skipIdx i joff ≤ m := by
      by_contra hlt
      have := skipIdx_min i joff m (by omega)
      omega
    exact hmem ⟨m, hmn, hmpos, by omega⟩
  · rintro ⟨hb1, hmem⟩
    refine ⟨hb1, ?_⟩
    rintro ⟨m, hmn, hmpos, hmle⟩
    refine hmem ⟨?_, ?_, ?_⟩
    · obtain ⟨h1, _⟩ := (walkPos_mem_iff hi (joff + b)).mp ⟨m, hmpos⟩
      exact h1
    · obtain ⟨_, h2⟩ := (walkPos_mem_iff hi (joff + b)).mp ⟨m, hmpos⟩
      exact h2
    · omega

/-- A pass never sets a bit. -/
theorem sieveStep_le {i : ℕ} (hi : 1 ≤ i) (s : ℕ → Bool) (joff B b : ℕ)
    (hb : 1 ≤ b) (h : s b = false) :
    sieveStep s joff B (luoC i) (luoIJ i) (luoT i) b = false := by
  rcases Bool.eq_false_or_eq_true (sieveStep s joff B (luoC i) (luoIJ i) (luoT i) b)
    with h' | h'
  · obtain ⟨h2, _⟩ := (sieveStep_char hi s joff B b hb).mp h'
    rw [h] at h2
    exact absurd h2 Bool.false_ne_true
  · exact h'

/-!
Claim C4: behaviour of the skip-ahead.
-/

/-- C4 (amended): starting from the Luo walk state of index `i` with
`c < j_off`, the skip-ahead lands on a walk element `≥ j_off` with the
matching phase gap (subsequent steps continue the walk), it is the
smallest walk element `> j_off` in every case, and when `t` does not
divide `j_off - c` it is the smallest walk element `≥ j_off`. -/
theorem c4_skip_ahead (i joff : ℕ) (hi : 1 ≤ i) (hlt : luoC i < joff) :
    ∃ n, skipAhead joff (luoC i) (luoIJ i) (luoT i) = (walkPos i n, wij i n) ∧
      joff ≤ walkPos i n ∧
      (∀ m, joff < walkPos i m → walkPos i n ≤ walkPos i m) ∧
      (¬ luoT i ∣ (joff - luoC i) →
        ∀ m, joff ≤ walkPos i m → walkPos i n ≤ walkPos i m) := by
  refine ⟨skipIdx i joff, skipAhead_eq i joff, skipIdx_ge i joff, ?_, ?_⟩
  · intro m hm
    rcases Nat.lt_or_ge m (skipIdx i joff) with h | h
    · have := skipIdx_min i joff m h
      omega
    · exact walkPos_le_walkPos h
  · intro hdvd m hm
    rcases Nat.lt_or_ge m (skipIdx i joff) with h | h
    · have := skipIdx_min_strict i joff hdvd m h
      omega
    · exact walkPos_le_walkPos h

/-- Witness for C4 at `i = 1`, `j_off = 11`. -/
theorem c4_skip_ahead_witness :
    (1 ≤ 1 ∧ luoC 1 < 11) ∧
    (∃ n, skipAhead 11 (luoC 1) (luoIJ 1) (luoT 1) = (walkPos 1 n, wij 1 n) ∧
      11 ≤ walkPos 1 n ∧
      (∀ m, 11 < walkPos 1 m → walkPos 1 n ≤ walkPos 1 m) ∧
      (¬ luoT 1 ∣ (11 - luoC 1) →
        ∀ m, 11 ≤ walkPos 1 m → walkPos 1 n ≤ walkPos 1 m)) :=
  ⟨⟨by decide, by decide⟩, c4_skip_ahead 1 11 (by decide) (by decide)⟩

/-- C4 counterexample, refuting the claim as stated: for the walk of
wheel index 1 (prime 5: `c = 8`, `ij = 3`, `t = 10`) and `j_off = 18`
(so `c < j_off` and `t ∣ j_off - c`), the skip-ahead yields `j = 21`,
yet `18` — the wheel index of `55 = 5 * 11`, reached by the walk at step
2 — is a walk element `≥ j_off` smaller than `21`; the skip-ahead
therefore does not always yield the smallest walk element `≥ j_off`. -/
theorem c4_counterexample :
    luoC 1 < 18 ∧ (skipAhead 18 (luoC 1) (luoIJ 1) (luoT 1)).1 = 21 ∧
      walkPos 1 2 = 18 ∧ (18 : ℕ) < 21 := by
  decide

/-!
Claim C3: the `is_prime` table of `practicalsieve_precalc`.

`q = sqrt(N)/3`; the table is a byte array of `(q+2+7)/8` bytes, set to
all ones, bit 0 cleared, and then for `i = 1 .. q` the Luo walk of every
index that still has its bit set is cleared up to `q`.
-/

/-- The table-building loop of `practicalsieve_precalc` (identical in the
C demonstration): `r` iterations starting at index `i` with Luo state
`st`; each iteration updates the state and, when bit `i` survives so far,
clears the walk of `i` bounded by `q`. -/
def isPrimeLoop (q : ℕ) : ℕ → ℕ → (ℕ × ℕ × ℕ) → (ℕ → Bool) → (ℕ → Bool)
  | 0, _, _, s => s
  | r + 1, i, st, s =>
    let u := luoUpd st i
    let s' := if s i = true then clearWhile (q + 1) s 0 u.1.1 u.2 u.1.2.2 q else s
    isPrimeLoop q r (i + 1) u.1 s'

/-- The `is_prime` bit table for bound `q`: all bits set, bit 0 cleared,
then the sieve loop over `i = 1 .. q`. -/
def is_prime (q : ℕ) : ℕ → Bool :=
  isPrimeLoop q q 1 (0, 1, 2) (Function.update (fun _ => true) 0 false)

/-- The walk of a wheel-prime index `p` does not reach `p` itself. -/
theorem no_self_hit {p g : ℕ} (hp : 1 ≤ p) (hprime : Nat.Prime (wval g))
    (hdvd : wval p ∣ wval g) (hsq : wval p * wval p ≤ wval g) : False := by
  have h5 : 5 ≤ wval p := five_le_wval hp
  rcases (Nat.Prime.eq_one_or_self_of_dvd hprime _ hdvd) with h | h
  · omega
  · have := wval_pos g
    nlinarith

/-- A composite wheel value has a strictly smaller wheel-prime index
whose walk covers it. -/
theorem composite_has_divisor {g : ℕ} (hg : 1 ≤ g)
    (hcomp : ¬ Nat.Prime (wval g)) :
    ∃ p, 1 ≤ p ∧ p < g ∧ Nat.Prime (wval p) ∧ wval p ∣ wval g ∧
      wval p * wval p ≤ wval g := by
  have h5 : 5 ≤ wval g := five_le_wval hg
  have hpos : 0 < wval g := by omega
  have hne1 : wval g ≠ 1 := by omega
  have hprime : Nat.Prime (Nat.minFac (wval g)) := Nat.minFac_prime hne1
  have hdvd : Nat.minFac (wval g) ∣ wval g := Nat.minFac_dvd _
  have hsq : Nat.minFac (wval g) ^ 2 ≤ wval g := Nat.minFac_sq_le_self hpos hcomp
  have hsq' : Nat.minFac (wval g) * Nat.minFac (wval g) ≤ wval g := by
    rw [← pow_two]; exact hsq
  have h2 : 2 ≤ Nat.minFac (wval g) := hprime.two_le
  have hmod : Nat.minFac (wval g) % 6 = 5 ∨ Nat.minFac (wval g) % 6 = 1 := by
    refine mod6_of_coprime6 ?_ ?_
    · intro h
      exact wval_not_two_dvd g (h.trans hdvd)
    · intro h
      exact wval_not_three_dvd g (h.trans hdvd)
  refine ⟨widx (Nat.minFac (wval g)), ?_, ?_, ?_, ?_, ?_⟩
  · have : 5 ≤ Nat.minFac (wval g) := by omega
    exact one_le_widx this
  · have hlt : Nat.minFac (wval g) < wval g := by nlinarith
    have hle := widx_le_widx hmod (wval_mod6 g) (by omega)
    rw [widx_wval] at hle
    rcases Nat.eq_or_lt_of_le hle with he | hl
    · exfalso
      have := wval_widx hmod
      rw [he, ] at this
      omega
    · exact hl
  · rwa [wval_widx hmod]
  · rwa [wval_widx hmod]
  · rwa [wval_widx hmod]

/-- Invariant characterization of the table loop: starting at index `i`
with the closed-form state and a table describing the sieve after
indices `< i`, running `r` more iterations yields the table for
indices `< i + r`. -/
theorem isPrimeLoop_char (q : ℕ) :
    ∀ (r i : ℕ) (s : ℕ → Bool), 1 ≤ i →
      (∀ g, s g = true ↔ (g ≠ 0 ∧ ¬ ∃ p, 1 ≤ p ∧ p < i ∧ Nat.Prime (wval p) ∧
        wval p ∣ wval g ∧ wval p * wval p ≤ wval g ∧ g ≤ q)) →
      ∀ g, isPrimeLoop q r i (luoC (i - 1), luoK (i - 1), luoT (i - 1)) s g = true ↔
        (g ≠ 0 ∧ ¬ ∃ p, 1 ≤ p ∧ p < i + r ∧ Nat.Prime (wval p) ∧
          wval p ∣ wval g ∧ wval p * wval p ≤ wval g ∧ g ≤ q) := by
  intro r
  induction r with
  | zero =>
    intro i s hi hinv g
    simpa using hinv g
  | succ r ih =>
    intro i s hi hinv g
    rw [isPrimeLoop]
    have hupd : luoUpd (luoC (i - 1), luoK (i - 1), luoT (i - 1)) i =
        ((luoC i, luoK i, luoT i), luoIJ i) := by
      have := luoUpd_closed (i - 1)
      rw [show i - 1 + 1 = i from by omega] at this
      exact this
    rw [hupd]
    set s' := if s i = true then
        clearWhile (q + 1) s 0 (luoC i) (luoIJ i) (luoT i) q else s with hs'
    have hinv' : ∀ g, s' g = true ↔ (g ≠ 0 ∧ ¬ ∃ p, 1 ≤ p ∧ p < i + 1 ∧
        Nat.Prime (wval p) ∧ wval p ∣ wval g ∧ wval p * wval p ≤ wval g ∧ g ≤ q) := by
      intro g'
      by_cases hguard : s i = true
      · -- bit i is still set: wval i is prime, or i > q
        rw [hs', if_pos hguard]
        have hchar := clearWhile_char (i := i) (q + 1) 0 s 0 q
          (by have := walkPos_zero i; omega)
          (by omega) g'
        rw [walkPos_zero] at hchar
        rw [show wij i 0 = luoIJ i from by unfold wij; rw [if_pos (by omega)]] at hchar
        rw [hchar]
        constructor
        · rintro ⟨hset, hnm⟩
          obtain ⟨hg0, hnp⟩ := (hinv g').mp hset
          refine ⟨hg0, ?_⟩
          rintro ⟨p, hp1, hp2, hp3, hp4, hp5, hp6⟩
          rcases Nat.lt_or_ge p i with hpi | hpi
          · exact hnp ⟨p, hp1, hpi, hp3, hp4, hp5, hp6⟩
          · have hpeq : p = i := by omega
            subst hpeq
            obtain ⟨m, hm⟩ := (walkPos_mem_iff hp1 g').mpr ⟨hp4, hp5⟩
            refine hnm ⟨m, by omega, by omega, ?_⟩
            have hgw : wval g' ≤ wval q := wval_le_wval hp6
            rw [hm]
            by_contra hlt
            have h2 : q < g' := by
              by_contra hle
              omega
            have := wval_lt_wval h2
            omega
        · rintro ⟨hg0, hnp⟩
          constructor
          · refine (hinv g').mpr ⟨hg0, ?_⟩
            rintro ⟨p, hp1, hp2, hp3, hp4, hp5, hp6⟩
            exact hnp ⟨p, hp1, by omega, hp3, hp4, hp5, hp6⟩
          · rintro ⟨m, _, hpos, hle⟩
            -- the walk of i hit g' within q: then wval i prime would give
            -- a witness; wval i composite means bit i was cleared earlier
            have hpos' : walkPos i m = g' := by omega
            have hmem := (walkPos_mem_iff hi g').mp ⟨m, hpos'⟩
            have hgq : g' ≤ q := by omega
            by_cases hip : Nat.Prime (wval i)
            · exact hnp ⟨i, hi, by omega, hip, hmem.1, hmem.2, hgq⟩
            · -- bit i set though composite: impossible when i ≤ q,
              -- and when i > q the walk cannot reach g' ≤ q
              have hiq : q < i := by
                by_contra hile
                obtain ⟨_, hnpi⟩ := (hinv i).mp hguard
                obtain ⟨p, hA, hB, hC, hD, hE⟩ := composite_has_divisor hi hip
                exact hnpi ⟨p, hA, hB, hC, hD, hE, by omega⟩
              have h1 : wval g' < wval i := wval_lt_wval (by omega)
              have h2 := five_le_wval hi
              nlinarith [hmem.2]
      · rw [hs', if_neg hguard]
        constructor
        · intro hset
          obtain ⟨hg0, hnp⟩ := (hinv g').mp hset
          refine ⟨hg0, ?_⟩
          rintro ⟨p, hp1, hp2, hp3, hp4, hp5, hp6⟩
          rcases Nat.lt_or_ge p i with hpi | hpi
          · exact hnp ⟨p, hp1, hpi, hp3, hp4, hp5, hp6⟩
          · have hpeq : i = p := by omega
            subst hpeq
            -- bit i cleared means wval i has an earlier prime divisor,
            -- contradicting primality of wval i
            have hsi : ¬ (i ≠ 0 ∧ ¬ ∃ p', 1 ≤ p' ∧ p' < i ∧ Nat.Prime (wval p') ∧
                wval p' ∣ wval i ∧ wval p' * wval p' ≤ wval i ∧ i ≤ q) := by
              intro hcontra
              exact hguard ((hinv i).mpr hcontra)
            push_neg at hsi
            obtain ⟨p', hq1, hq2, hq3, hq4, hq5, _⟩ := hsi (by omega)
            exact no_self_hit hq1 hp3 hq4 hq5
        · intro h
          refine (hinv g').mpr ⟨h.1, ?_⟩
          rintro ⟨p, hp1, hp2, hp3, hp4, hp5, hp6⟩
          exact h.2 ⟨p, hp1, by omega, hp3, hp4, hp5, hp6⟩
    have := ih (i + 1) s' (by omega) hinv' g
    rw [show i + 1 - 1 = i from by omega] at this
    rw [this]
    constructor
    · rintro ⟨hg0, hnp⟩
      refine ⟨hg0, ?_⟩
      rintro ⟨p, hp1, hp2, hp3, hp4, hp5, hp6⟩
      exact hnp ⟨p, hp1, by omega, hp3, hp4, hp5, hp6⟩
    · rintro ⟨hg0, hnp⟩
      refine ⟨hg0, ?_⟩
      rintro ⟨p, hp1, hp2, hp3, hp4, hp5, hp6⟩
      exact hnp ⟨p, hp1, by omega, hp3, hp4, hp5, hp6⟩

/-- Final characterization of the `is_prime` table: bit `g` with
`1 ≤ g ≤ q` is set iff `wval g` is prime; bit 0 is cleared. -/
theorem is_prime_char (q g : ℕ) (hg : 1 ≤ g) (hgq : g ≤ q) :
    (is_prime q g = true ↔ Nat.Prime (wval g)) := by
  unfold is_prime
  have hinit : ∀ g', (Function.update (fun _ => true) 0 false) g' = true ↔
      (g' ≠ 0 ∧ ¬ ∃ p, 1 ≤ p ∧ p < 1 ∧ Nat.Prime (wval p) ∧
        wval p ∣ wval g' ∧ wval p * wval p ≤ wval g' ∧ g' ≤ q) := by
    intro g'
    rw [Function.update_apply]
    by_cases h0 : g' = 0
    · simp [h0]
    · rw [if_neg h0]
      constructor
      · intro _
        exact ⟨h0, by rintro ⟨p, hp1, hp2, _⟩; omega⟩
      · intro _
        rfl
  have hchar := isPrimeLoop_char q q 1 _ (by omega) hinit g
  rw [show luoC (1 - 1) = 0 from rfl, show luoK (1 - 1) = 1 from rfl,
    show luoT (1 - 1) = 2 from rfl] at hchar
  rw [hchar]
  constructor
  · rintro ⟨_, hnp⟩
    by_contra hcomp
    obtain ⟨p, hA, hB, hC, hD, hE⟩ := composite_has_divisor hg hcomp
    exact hnp ⟨p, hA, by omega, hC, hD, hE, hgq⟩
  · intro hprime
    refine ⟨by omega, ?_⟩
    rintro ⟨p, hp1, hp2, hp3, hp4, hp5, _⟩
    exact no_self_hit hp1 hprime hp4 hp5

theorem is_prime_zero (q : ℕ) : is_prime q 0 = false := by
  unfold is_prime
  have hinit : ∀ g', (Function.update (fun _ => true) 0 false) g' = true ↔
      (g' ≠ 0 ∧ ¬ ∃ p, 1 ≤ p ∧ p < 1 ∧ Nat.Prime (wval p) ∧
        wval p ∣ wval g' ∧ wval p * wval p ≤ wval g' ∧ g' ≤ q) := by
    intro g'
    rw [Function.update_apply]
    by_cases h0 : g' = 0
    · simp [h0]
    · rw [if_neg h0]
      constructor
      · intro _
        exact ⟨h0, by rintro ⟨p, hp1, hp2, _⟩; omega⟩
      · intro _
        rfl
  have hchar := isPrimeLoop_char q q 1 _ (by omega) hinit 0
  rw [show luoC (1 - 1) = 0 from rfl, show luoK (1 - 1) = 1 from rfl,
    show luoT (1 - 1) = 2 from rfl] at hchar
  rcases Bool.eq_false_or_eq_true (isPrimeLoop q q 1 (0, 1, 2)
      (Function.update (fun _ => true) 0 false) 0) with h | h
  · obtain ⟨h0, _⟩ := hchar.mp h
    exact absurd rfl h0
  · exact h

/-!
Claims C5 and C6: the pre-sieve template of `practicalsieve_precalc`.
-/

/-- The downward clearing loop
`i = n; while (i) { CLRBIT(s, base - i); i--; }`,
which clears bit positions `base - n .. base - 1`. -/
def clearDown : ℕ → (ℕ → Bool) → ℕ → (ℕ → Bool)
  | 0, s, _ => s
  | n + 1, s, base => clearDown n (Function.update s (base - (n + 1)) false) base

theorem clearDown_char :
    ∀ (n : ℕ) (s : ℕ → Bool) (base : ℕ), n ≤ base → ∀ b,
      (clearDown n s base b = true ↔
        (s b = true ∧ ¬ (base - n ≤ b ∧ b < base))) := by
  intro n
  induction n with
  | zero =>
    intro s base _ b
    simp only [clearDown]
    constructor
    · intro h
      exact ⟨h, by omega⟩
    · exact fun h => h.1
  | succ n ih =>
    intro s base hle b
    rw [clearDown, ih _ _ (by omega), Function.update_apply]
    by_cases heq : b = base - (n + 1)
    · rw [if_pos heq]
      constructor
      · rintro ⟨h, _⟩
        exact absurd h (by simp)
      · rintro ⟨_, hnot⟩
        exact absurd ⟨by omega, by omega⟩ hnot
    · rw [if_neg heq]
      constructor
      · rintro ⟨h1, h2⟩
        exact ⟨h1, by omega⟩
      · rintro ⟨h1, h2⟩
        exact ⟨h1, by omega⟩

/-- Byte store `s[0] = v`: bits `0..7` are taken from the byte value `v`
(LSB first), all other bits are unchanged. -/
def setByte0 (v : ℕ) (s : ℕ → Bool) : ℕ → Bool :=
  fun b => if b < 8 then v.testBit b else s b

/-- The pre-sieve construction loop of `practicalsieve_precalc`: for each
index `i`, update the Luo state, skip ahead past `j_off`, and clear walk
elements while their local byte offset is inside the array, i.e. while
`(j - j_off) >> 3 < mem_sz`, equivalently `j ≤ B` with
`B = j_off + 8 * mem_sz - 1`. -/
def preSieveLoop (joff B : ℕ) : ℕ → ℕ → (ℕ × ℕ × ℕ) → (ℕ → Bool) → (ℕ → Bool)
  | 0, _, _, s => s
  | r + 1, i, st, s =>
    let u := luoUpd st i
    let s' := sieveStep s joff B u.1.1 u.2 u.1.2.2
    preSieveLoop joff B r (i + 1) u.1 s'

/-- The pre-sieve template of `practicalsieve_precalc` for upper bound
`nval`, adjusted floor `fromAdj` and segment width `stepSz`:
`sieve_sz = step_sz/3`, `mem_sz = (sieve_sz+2+7)/8`, all bits set, bit 0
cleared, `j_off = (from_adj-1)/3`, pre-sieve `i = 1..5` (`..6` when
`N ≥ 10^12`), byte 0 patched to `0xc0`/`0x80` when `from_adj == 1`, and
all bits above `sieve_sz` cleared. -/
def pre_sieve (nval fromAdj stepSz : ℕ) : ℕ → Bool :=
  let sieveSz := stepSz / 3
  let memSz := (sieveSz + 2 + 7) / 8
  let joff := (fromAdj - 1) / 3
  let ns : ℕ := if nval < 10 ^ 12 then 5 else 6
  let s0 : ℕ → Bool := Function.update (fun _ => true) 0 false
  let s1 := preSieveLoop joff (joff + 8 * memSz - 1) ns 1 (0, 1, 2) s0
  let s2 := if fromAdj = 1 then setByte0 (if nval < 10 ^ 12 then 0xc0 else 0x80) s1 else s1
  clearDown (8 * memSz - (sieveSz + 1)) s2 (8 * memSz)

/-- Generic characterization of the pre-sieve loop over indices
`i .. i+r-1`, for local bits `b ≥ 1`. -/
theorem preSieveLoop_char (joff B : ℕ) :
    ∀ (r i : ℕ) (s : ℕ → Bool), 1 ≤ i → ∀ b, 1 ≤ b →
      (preSieveLoop joff B r i (luoC (i - 1), luoK (i - 1), luoT (i - 1)) s b = true ↔
        (s b = true ∧ ∀ p, i ≤ p → p < i + r →
          ¬ (wval p ∣ wval (joff + b) ∧ wval p * wval p ≤ wval (joff + b) ∧
            joff + b ≤ B))) := by
  intro r
  induction r with
  | zero =>
    intro i s hi b hb
    simp only [preSieveLoop]
    constructor
    · intro h
      exact ⟨h, fun p h1 h2 => by omega⟩
    · exact fun h => h.1
  | succ r ih =>
    intro i s hi b hb
    rw [preSieveLoop]
    have hupd : luoUpd (luoC (i - 1), luoK (i - 1), luoT (i - 1)) i =
        ((luoC i, luoK i, luoT i), luoIJ i) := by
      have := luoUpd_closed (i - 1)
      rw [show i - 1 + 1 = i from by omega] at this
      exact this
    rw [hupd]
    have hrec := ih (i + 1) (sieveStep s joff B (luoC i) (luoIJ i) (luoT i))
      (by omega) b hb
    rw [show i + 1 - 1 = i from by omega] at hrec
    rw [hrec, sieveStep_char hi s joff B b hb]
    constructor
    · rintro ⟨⟨hs, hnot⟩, hall⟩
      refine ⟨hs, ?_⟩
      intro p h1 h2
      rcases Nat.eq_or_lt_of_le h1 with rfl | hlt
      · intro hc
        exact hnot ⟨hc.1, hc.2.1, hc.2.2⟩
      · exact fun hc => hall p hlt (by omega) hc
    · rintro ⟨hs, hall⟩
      refine ⟨⟨hs, ?_⟩, ?_⟩
      · intro hc
        exact hall i (Nat.le_refl i) (by omega) ⟨hc.1, hc.2.1, hc.2.2⟩
      · intro p h1 h2
        exact hall p (by omega) (by omega)

/-- Size facts for a valid step size. -/
theorem sieveSz_facts {nval stepSz : ℕ}
    (hdvd : (if nval < 10 ^ 12 then 510510 else 9699690) ∣ stepSz)
    (hpos : 0 < stepSz) :
    170170 ≤ stepSz / 3 ∧ stepSz / 3 % 2 = 0 ∧ 3 * (stepSz / 3) = stepSz := by
  by_cases h12 : nval < 10 ^ 12
  · rw [if_pos h12] at hdvd
    obtain ⟨k, rfl⟩ := hdvd
    have hk : 1 ≤ k := by omega
    have h3 : 510510 * k / 3 = 170170 * k := by omega
    rw [h3]
    omega
  · rw [if_neg h12] at hdvd
    obtain ⟨k, rfl⟩ := hdvd
    have hk : 1 ≤ k := by omega
    have h3 : 9699690 * k / 3 = 3233230 * k := by omega
    rw [h3]
    omega

/-- Characterization of the pre-sieve template on its useful range
`1 ≤ b ≤ sieve_sz`: the bit is set iff it is not in the byte-0 patch
zone (`from_adj = 1` and `b ≤ 5` resp. `6`) and no sieve prime's walk
lands on `j_off + b`. -/
theorem pre_sieve_char (nval fromAdj stepSz : ℕ)
    (hdvd : (if nval < 10 ^ 12 then 510510 else 9699690) ∣ stepSz)
    (hpos : 0 < stepSz) (b : ℕ) (hb1 : 1 ≤ b) (hb2 : b ≤ stepSz / 3) :
    (pre_sieve nval fromAdj stepSz b = true ↔
      (¬ (fromAdj = 1 ∧ b ≤ (if nval < 10 ^ 12 then 5 else 6)) ∧
        ∀ p, 1 ≤ p → p ≤ (if nval < 10 ^ 12 then 5 else 6) →
          ¬ (wval p ∣ wval ((fromAdj - 1) / 3 + b) ∧
            wval p * wval p ≤ wval ((fromAdj - 1) / 3 + b)))) := by
  obtain ⟨hs1, hs2, hs3⟩ := sieveSz_facts hdvd hpos
  unfold pre_sieve
  set sieveSz := stepSz / 3 with hsz
  set memSz := (sieveSz + 2 + 7) / 8 with hmem
  set joff := (fromAdj - 1) / 3 with hjoff
  set ns : ℕ := if nval < 10 ^ 12 then 5 else 6 with hns
  have hns56 : ns = 5 ∨ ns = 6 := by
    rw [hns]; split <;> omega
  have hmem8 : sieveSz + 2 ≤ 8 * memSz := by omega
  have hBpos : joff + b ≤ joff + 8 * memSz - 1 := by omega
  -- the tail clear does not touch b ≤ sieveSz
  rw [clearDown_char _ _ _ (by omega) b]
  have htail : ¬ (8 * memSz - (8 * memSz - (sieveSz + 1)) ≤ b ∧ b < 8 * memSz) := by
    omega
  -- the loop characterization, specialised
  have hloop := preSieveLoop_char joff (joff + 8 * memSz - 1) ns 1
    (Function.update (fun _ => true) 0 false) (by omega) b hb1
  rw [show (1 : ℕ) - 1 = 0 from rfl] at hloop
  rw [show luoC 0 = 0 from rfl, show luoK 0 = 1 from rfl,
    show luoT 0 = 2 from rfl] at hloop
  have hinit : (Function.update (fun _ => true) 0 false) b = true := by
    rw [Function.update_apply, if_neg (by omega)]
  by_cases hfa : fromAdj = 1
  · rw [if_pos hfa]
    have hjoff0 : joff = 0 := by rw [hjoff, hfa]
    by_cases hb8 : b < 8
    · -- inside the patched byte
      rw [hjoff0]
      constructor
      · intro hset
        obtain ⟨hbit, _⟩ := hset
        rw [setByte0, if_pos hb8] at hbit
        by_cases h12 : nval < 10 ^ 12
        · rw [if_pos h12] at hbit
          have hbig : 5 < b := by
            by_contra hle
            have hb5 : b ≤ 5 := by omega
            revert hbit
            interval_cases b <;> decide
          refine ⟨?_, ?_⟩
          · rintro ⟨_, hbns⟩
            rw [hns, if_pos h12] at hbns
            omega
          · intro p h1 h2 hc
            rw [hns, if_pos h12] at h2
            revert hc
            have hb7 : b ≤ 7 := by omega
            interval_cases b <;> interval_cases p <;> decide
        · rw [if_neg h12] at hbit
          have hbig : 6 < b := by
            by_contra hle
            have hb6 : b ≤ 6 := by omega
            revert hbit
            interval_cases b <;> decide
          refine ⟨?_, ?_⟩
          · rintro ⟨_, hbns⟩
            rw [hns, if_neg h12] at hbns
            omega
          · intro p h1 h2 hc
            rw [hns, if_neg h12] at h2
            revert hc
            have hb7 : b ≤ 7 := by omega
            interval_cases b <;> interval_cases p <;> decide
      · rintro ⟨hzone, hnp⟩
        refine ⟨?_, htail⟩
        rw [setByte0, if_pos hb8]
        have hbns : ns < b := by
          by_contra hle
          exact hzone ⟨hfa, by omega⟩
        by_cases h12 : nval < 10 ^ 12
        · rw [if_pos h12]
          rw [hns, if_pos h12] at hbns
          interval_cases b <;> decide
        · rw [if_neg h12]
          rw [hns, if_neg h12] at hbns
          interval_cases b <;> decide
    · -- beyond the patched byte: the loop result is untouched
      constructor
      · intro hset
        obtain ⟨hbit, _⟩ := hset
        rw [setByte0, if_neg hb8] at hbit
        obtain ⟨_, hall⟩ := hloop.mp hbit
        refine ⟨by rw [hns]; omega, ?_⟩
        intro p h1 h2 hc
        exact hall p h1 (by omega) ⟨hc.1, hc.2, hBpos⟩
      · rintro ⟨_, hnp⟩
        refine ⟨?_, htail⟩
        rw [setByte0, if_neg hb8]
        refine hloop.mpr ⟨hinit, ?_⟩
        intro p h1 h2 hc
        exact hnp p h1 (by omega) ⟨hc.1, hc.2.1⟩
  · rw [if_neg hfa]
    constructor
    · intro hset
      obtain ⟨hbit, _⟩ := hset
      obtain ⟨_, hall⟩ := hloop.mp hbit
      refine ⟨fun h => hfa h.1, ?_⟩
      intro p h1 h2 hc
      exact hall p h1 (by omega) ⟨hc.1, hc.2, hBpos⟩
    · rintro ⟨_, hnp⟩
      refine ⟨?_, htail⟩
      refine hloop.mpr ⟨hinit, ?_⟩
      intro p h1 h2 hc
      exact hnp p h1 (by omega) ⟨hc.1, hc.2.1⟩

/-- C6 (amended): after `practicalsieve_precalc` returns, every bit of
the pre-sieve template at index strictly greater than `sieve_sz`, up to
the last allocated bit `8 * mem_sz - 1`, is cleared. -/
theorem c6_template_tail (nval fromAdj stepSz b : ℕ)
    (hb1 : stepSz / 3 + 1 ≤ b) (hb2 : b < 8 * ((stepSz / 3 + 2 + 7) / 8)) :
    pre_sieve nval fromAdj stepSz b = false := by
  unfold pre_sieve
  rcases Bool.eq_false_or_eq_true (clearDown
      (8 * ((stepSz / 3 + 2 + 7) / 8) - (stepSz / 3 + 1))
      (if fromAdj = 1 then
        setByte0 (if nval < 10 ^ 12 then 0xc0 else 0x80)
          (preSieveLoop ((fromAdj - 1) / 3)
            ((fromAdj - 1) / 3 + 8 * ((stepSz / 3 + 2 + 7) / 8) - 1) (if nval < 10 ^ 12 then 5 else 6) 1
            (0, 1, 2) (Function.update (fun _ => true) 0 false))
      else
        preSieveLoop ((fromAdj - 1) / 3)
          ((fromAdj - 1) / 3 + 8 * ((stepSz / 3 + 2 + 7) / 8) - 1) (if nval < 10 ^ 12 then 5 else 6) 1
          (0, 1, 2) (Function.update (fun _ => true) 0 false))
      (8 * ((stepSz / 3 + 2 + 7) / 8)) b) with h | h
  · obtain ⟨_, hnot⟩ := (clearDown_char _ _ _ (by omega) b).mp h
    exact absurd ⟨by omega, by omega⟩ hnot
  · exact h

/-- Witness for C6 at `N = 1000`, `F_adj = 1`, `step_sz = 510510`,
bit index `sieve_sz + 1 = 170171` (with `8 * mem_sz = 170176`). -/
theorem c6_template_tail_witness :
    (510510 / 3 + 1 ≤ 170171 ∧ 170171 < 8 * ((510510 / 3 + 2 + 7) / 8)) ∧
      pre_sieve 1000 1 510510 170171 = false :=
  ⟨⟨by decide, by decide⟩, c6_template_tail 1000 1 510510 170171 (by decide) (by decide)⟩

/-- C6 counterexample, refuting the claim as stated ("every bit at index
`≥ sieve_sz` is cleared"): bit `sieve_sz = 170170` itself survives for
`N = 1000`, `F_adj = 1`, `step_sz = 510510` — its value
`3 * 170170 + 1 = 510511 = step_sz + 1` is coprime to 5, 7, 11, 13, 17,
and the tail loop only clears indices strictly greater than `sieve_sz`. -/
theorem c6_counterexample : pre_sieve 1000 1 510510 170170 = true := by
  rw [pre_sieve_char 1000 1 510510 (by norm_num) (by norm_num) 170170
    (by norm_num) (by norm_num)]
  refine ⟨?_, ?_⟩
  · rintro ⟨_, h⟩
    rw [if_pos (by norm_num)] at h
    omega
  · intro p h1 h2 hc
    rw [if_pos (by norm_num)] at h2
    revert hc
    interval_cases p <;> decide

/-!
Claim C5: template versus direct sieve, and the tiling property.
-/

/-- Modelled from the spec (§8 round-trip property): the result of
directly sieving the small primes over a fresh all-set bit array at the
template's offset: bit `b` is cleared exactly when the composite walk of
some sieve prime lands on `j_off + b` (by `walkPos_mem_iff`, the walk of
index `i` lands on `g` iff `wval i` divides `wval g` and
`wval g ≥ (wval i)^2`). -/
def smallSieveRef (nval fromAdj stepSz b : ℕ) : Bool :=
  @decide (∀ i, i ≤ (if nval < 10 ^ 12 then 5 else 6) → 1 ≤ i →
      ¬ (wval i ∣ wval ((fromAdj - 1) / 3 + b) ∧
        wval i * wval i ≤ wval ((fromAdj - 1) / 3 + b)))
    (Nat.decidableBallLE _ _)

/-- A composite wheel value with a divisor `u ≥ 2` has a wheel-prime
index `p` with `wval p ≤ u` whose walk covers it. -/
theorem hit_of_dvd {g u : ℕ} (hg : 1 ≤ g) (hcomp : ¬ Nat.Prime (wval g))
    (hu2 : 2 ≤ u) (hdvd : u ∣ wval g) :
    ∃ p, 1 ≤ p ∧ wval p ≤ u ∧ wval p ∣ wval g ∧ wval p * wval p ≤ wval g := by
  have h5 : 5 ≤ wval g := five_le_wval hg
  have hpos : 0 < wval g := by omega
  have hne1 : wval g ≠ 1 := by omega
  have hprime : Nat.Prime (Nat.minFac (wval g)) := Nat.minFac_prime hne1
  have hmdvd : Nat.minFac (wval g) ∣ wval g := Nat.minFac_dvd _
  have hsq : Nat.minFac (wval g) ^ 2 ≤ wval g := Nat.minFac_sq_le_self hpos hcomp
  have hsq' : Nat.minFac (wval g) * Nat.minFac (wval g) ≤ wval g := by
    rw [← pow_two]; exact hsq
  have hle : Nat.minFac (wval g) ≤ u := Nat.minFac_le_of_dvd hu2 hdvd
  have hmod : Nat.minFac (wval g) % 6 = 5 ∨ Nat.minFac (wval g) % 6 = 1 := by
    refine mod6_of_coprime6 ?_ ?_
    · intro h
      exact wval_not_two_dvd g (h.trans hmdvd)
    · intro h
      exact wval_not_three_dvd g (h.trans hmdvd)
  have h2 : 2 ≤ Nat.minFac (wval g) := hprime.two_le
  refine ⟨widx (Nat.minFac (wval g)), ?_, ?_, ?_, ?_⟩
  · have h5' : 5 ≤ Nat.minFac (wval g) := by omega
    exact one_le_widx h5'
  · rwa [wval_widx hmod]
  · rwa [wval_widx hmod]
  · rwa [wval_widx hmod]

/-- The small-prime hit predicate is invariant under shifting the wheel
index by a multiple of the (even) template length, as long as the value
at the unshifted position lies beyond the sieve primes themselves. -/
theorem smallHit_shift {ns g c s : ℕ}
    (heven : s % 2 = 0)
    (hdvds : ∀ i, 1 ≤ i → i ≤ ns → wval i ∣ 3 * s)
    (hg : ns < g) :
    ((∃ i, 1 ≤ i ∧ i ≤ ns ∧ wval i ∣ wval g ∧ wval i * wval i ≤ wval g) ↔
      (∃ i, 1 ≤ i ∧ i ≤ ns ∧ wval i ∣ wval (g + c * s) ∧
        wval i * wval i ≤ wval (g + c * s))) := by
  obtain ⟨m, rfl⟩ : ∃ m, s = 2 * m := ⟨s / 2, by omega⟩
  have hshift : wval (g + c * (2 * m)) = wval g + 6 * (c * m) := by
    have h2 : g + c * (2 * m) = g + 2 * (c * m) := by ring
    rw [h2, wval_add_two_mul]
  have hdvd6 : ∀ i, 1 ≤ i → i ≤ ns → wval i ∣ 6 * (c * m) := by
    intro i h1 h2
    have h6 : (6 : ℕ) * (c * m) = c * (3 * (2 * m)) := by ring
    rw [h6]
    exact Dvd.dvd.mul_left (hdvds i h1 h2) c
  constructor
  · rintro ⟨i, h1, h2, h3, h4⟩
    refine ⟨i, h1, h2, ?_, ?_⟩
    · rw [hshift]
      exact Nat.dvd_add h3 (hdvd6 i h1 h2)
    · rw [hshift]
      omega
  · rintro ⟨i, h1, h2, h3, h4⟩
    rw [hshift] at h3 h4
    have hdg : wval i ∣ wval g := by
      have := (Nat.dvd_add_right (hdvd6 i h1 h2)).mp (by rwa [Nat.add_comm] at h3)
      exact this
    by_cases hsq : wval i * wval i ≤ wval g
    · exact ⟨i, h1, h2, hdg, hsq⟩
    · -- wval g is a proper multiple of wval i, hence composite with a
      -- small least prime factor
      have hgi : wval i < wval g := wval_lt_wval (by omega)
      have h5i : 5 ≤ wval i := five_le_wval h1
      have hcomp : ¬ Nat.Prime (wval g) := by
        intro hp
        rcases hp.eq_one_or_self_of_dvd _ hdg with h | h <;> omega
      obtain ⟨p, hp1, hp2, hp3, hp4⟩ := hit_of_dvd (by omega) hcomp (by omega) hdg
      refine ⟨p, hp1, ?_, hp3, ?_⟩
      · have := widx_le_widx (wval_mod6 p) (wval_mod6 i) hp2
        rw [widx_wval, widx_wval] at this
        omega
      · exact hp4

/-- Two booleans agreeing as propositions are equal. -/
theorem bool_eq_of_iff {x y : Bool} (h : x = true ↔ y = true) : x = y := by
  cases x <;> cases y <;> simp_all

/-- Each sieve prime divides a valid step size. -/
theorem small_dvd_step {nval stepSz : ℕ}
    (hdvd : (if nval < 10 ^ 12 then 510510 else 9699690) ∣ stepSz) :
    ∀ i, 1 ≤ i → i ≤ (if nval < 10 ^ 12 then 5 else 6) → wval i ∣ stepSz := by
  intro i h1 h2
  by_cases h12 : nval < 10 ^ 12
  · rw [if_pos h12] at hdvd
    rw [if_pos h12] at h2
    refine dvd_trans ?_ hdvd
    interval_cases i <;> decide
  · rw [if_neg h12] at hdvd
    rw [if_neg h12] at h2
    refine dvd_trans ?_ hdvd
    interval_cases i <;> decide

/-- C5 (amended): on bit positions `1 ≤ b ≤ sieve_sz` whose template
value lies beyond the sieve primes themselves (`ns < j_off + b`), the
template built at offset `j_off = (F_adj - 1)/3` agrees bit-for-bit with
the direct small-prime sieve of a fresh array at the same offset, and —
the tiling property — for every chunk shift `c` the template bit is set
iff the value at the shifted position `j_off + c * sieve_sz + b` is not a
small-prime walk composite.  The carve-outs are forced by the
counterexample: bit 0 is explicitly cleared in the template, positions
whose template value IS one of the sieve primes (possible for
`F_adj ∈ {7, 13}`) stay set although their shifted copies are
composites, and bits above `sieve_sz` are tail-cleared. -/
theorem c5_template_tiles (nval fromAdj stepSz : ℕ)
    (hdvd : (if nval < 10 ^ 12 then 510510 else 9699690) ∣ stepSz)
    (hpos : 0 < stepSz) (c b : ℕ) (hb1 : 1 ≤ b) (hb2 : b ≤ stepSz / 3)
    (hzone : (if nval < 10 ^ 12 then 5 else 6) < (fromAdj - 1) / 3 + b) :
    (pre_sieve nval fromAdj stepSz b = smallSieveRef nval fromAdj stepSz b) ∧
    (pre_sieve nval fromAdj stepSz b = true ↔
      ∀ p, 1 ≤ p → p ≤ (if nval < 10 ^ 12 then 5 else 6) →
        ¬ (wval p ∣ wval ((fromAdj - 1) / 3 + c * (stepSz / 3) + b) ∧
          wval p * wval p ≤ wval ((fromAdj - 1) / 3 + c * (stepSz / 3) + b))) := by
  obtain ⟨hs1, hs2, hs3⟩ := sieveSz_facts hdvd hpos
  have hchar := pre_sieve_char nval fromAdj stepSz hdvd hpos b hb1 hb2
  have hnz : ¬ (fromAdj = 1 ∧ b ≤ (if nval < 10 ^ 12 then 5 else 6)) := by
    rintro ⟨hfa, hble⟩
    rw [hfa] at hzone
    rw [show ((1:ℕ) - 1) / 3 = 0 from rfl, Nat.zero_add] at hzone
    omega
  have hchar' : pre_sieve nval fromAdj stepSz b = true ↔
      ∀ p, 1 ≤ p → p ≤ (if nval < 10 ^ 12 then 5 else 6) →
        ¬ (wval p ∣ wval ((fromAdj - 1) / 3 + b) ∧
          wval p * wval p ≤ wval ((fromAdj - 1) / 3 + b)) := by
    rw [hchar]
    constructor
    · exact fun h => h.2
    · exact fun h => ⟨hnz, h⟩
  have href : smallSieveRef nval fromAdj stepSz b = true ↔
      ∀ i, i ≤ (if nval < 10 ^ 12 then 5 else 6) → 1 ≤ i →
        ¬ (wval i ∣ wval ((fromAdj - 1) / 3 + b) ∧
          wval i * wval i ≤ wval ((fromAdj - 1) / 3 + b)) := by
    unfold smallSieveRef
    exact decide_eq_true_iff
  have hdvds : ∀ i, 1 ≤ i → i ≤ (if nval < 10 ^ 12 then 5 else 6) →
      wval i ∣ 3 * (stepSz / 3) := by
    intro i h1 h2
    rw [hs3]
    exact small_dvd_step hdvd i h1 h2
  have hshift := @smallHit_shift (if nval < 10 ^ 12 then 5 else 6)
    ((fromAdj - 1) / 3 + b) c (stepSz / 3) hs2 hdvds hzone
  constructor
  · refine bool_eq_of_iff ?_
    rw [hchar', href]
    constructor
    · intro h i hA hB
      exact h i hB hA
    · intro h p hA hB
      exact h p hB hA
  · rw [hchar']
    have hassoc : (fromAdj - 1) / 3 + c * (stepSz / 3) + b =
        (fromAdj - 1) / 3 + b + c * (stepSz / 3) := by ring
    rw [hassoc]
    constructor
    · intro h p h1 h2 hc'
      have hex : ∃ i, 1 ≤ i ∧ i ≤ (if nval < 10 ^ 12 then 5 else 6) ∧
          wval i ∣ wval ((fromAdj - 1) / 3 + b + c * (stepSz / 3)) ∧
          wval i * wval i ≤ wval ((fromAdj - 1) / 3 + b + c * (stepSz / 3)) :=
        ⟨p, h1, h2, hc'.1, hc'.2⟩
      obtain ⟨i, hA, hB, hC, hD⟩ := hshift.mpr hex
      exact h i hA hB ⟨hC, hD⟩
    · intro h p h1 h2 hc'
      have hex : ∃ i, 1 ≤ i ∧ i ≤ (if nval < 10 ^ 12 then 5 else 6) ∧
          wval i ∣ wval ((fromAdj - 1) / 3 + b) ∧
          wval i * wval i ≤ wval ((fromAdj - 1) / 3 + b) :=
        ⟨p, h1, h2, hc'.1, hc'.2⟩
      obtain ⟨i, hA, hB, hC, hD⟩ := hshift.mp hex
      exact h i hA hB ⟨hC, hD⟩

/-- Witness for C5 at `N = 1000`, `F_adj = 19`, `step_sz = 510510`,
chunk shift `c = 1`, bit `b = 1`. -/
theorem c5_template_tiles_witness :
    ((if (1000 : ℕ) < 10 ^ 12 then 510510 else 9699690) ∣ 510510 ∧
      (0:ℕ) < 510510 ∧ (1:ℕ) ≤ 1 ∧ 1 ≤ 510510 / 3 ∧
      (if (1000 : ℕ) < 10 ^ 12 then 5 else 6) < (19 - 1) / 3 + 1) ∧
    ((pre_sieve 1000 19 510510 1 = smallSieveRef 1000 19 510510 1) ∧
      (pre_sieve 1000 19 510510 1 = true ↔
        ∀ p, 1 ≤ p → p ≤ (if (1000:ℕ) < 10 ^ 12 then 5 else 6) →
          ¬ (wval p ∣ wval ((19 - 1) / 3 + 1 * (510510 / 3) + 1) ∧
            wval p * wval p ≤ wval ((19 - 1) / 3 + 1 * (510510 / 3) + 1)))) :=
  ⟨⟨by norm_num, by norm_num, by norm_num, by norm_num, by norm_num⟩,
    c5_template_tiles 1000 19 510510 (by norm_num) (by norm_num) 1 1
      (by norm_num) (by norm_num) (by norm_num)⟩

/-- C5 counterexample, refuting the claim as stated: for `N = 1000`,
`step_sz = 510510`: (a) with `F_adj = 1` the template clears bit 0 while
the direct walk over a fresh all-set array leaves it set, so the two are
not equal bit-for-bit; (b) with `F_adj = 7` the template keeps bit 1 set
(its value is the prime 11), yet in the next segment (shift
`c = 1`) that same bit position denotes `510521 = 11 * 46411`, a
small-prime composite that the copied template fails to clear — the
template does not tile exactly. -/
theorem c5_counterexample :
    pre_sieve 1000 1 510510 0 = false ∧
    smallSieveRef 1000 1 510510 0 = true ∧
    pre_sieve 1000 7 510510 1 = true ∧
    wval 3 ∣ wval ((7 - 1) / 3 + 1 * (510510 / 3) + 1) ∧
    wval 3 * wval 3 ≤ wval ((7 - 1) / 3 + 1 * (510510 / 3) + 1) := by
  refine ⟨?_, by decide, ?_, by decide, by decide⟩
  · -- bit 0 of the template is cleared (byte-0 patch 0xc0)
    unfold pre_sieve
    rcases Bool.eq_false_or_eq_true (clearDown
        (8 * ((510510 / 3 + 2 + 7) / 8) - (510510 / 3 + 1))
        (if (1 : ℕ) = 1 then
          setByte0 (if (1000 : ℕ) < 10 ^ 12 then 0xc0 else 0x80)
            (preSieveLoop ((1 - 1) / 3) ((1 - 1) / 3 + 8 * ((510510 / 3 + 2 + 7) / 8) - 1)
              (if (1000 : ℕ) < 10 ^ 12 then 5 else 6) 1 (0, 1, 2)
              (Function.update (fun _ => true) 0 false))
        else
          preSieveLoop ((1 - 1) / 3) ((1 - 1) / 3 + 8 * ((510510 / 3 + 2 + 7) / 8) - 1)
            (if (1000 : ℕ) < 10 ^ 12 then 5 else 6) 1 (0, 1, 2)
            (Function.update (fun _ => true) 0 false))
        (8 * ((510510 / 3 + 2 + 7) / 8)) 0) with h | h
    · -- if it were set, the byte-0 patch bit 0 would be set; but 0xc0
      -- has bit 0 clear
      exfalso
      obtain ⟨hbit, _⟩ := (clearDown_char _ _ _ (by norm_num) 0).mp h
      rw [if_pos rfl] at hbit
      rw [setByte0, if_pos (by norm_num), if_pos (by norm_num)] at hbit
      exact absurd hbit (by decide)
    · exact h
  · -- F_adj = 7: bit 1 (the prime 11) stays set
    rw [pre_sieve_char 1000 7 510510 (by norm_num) (by norm_num) 1
      (by norm_num) (by norm_num)]
    refine ⟨by norm_num, ?_⟩
    intro p h1 h2 hc
    rw [if_pos (by norm_num)] at h2
    revert hc
    interval_cases p <;> decide

/-- C3: after `practicalsieve_precalc` returns, with `q = ⌊√N⌋ / 3`,
bit `i` of the `is_prime` table is set for `1 ≤ i ≤ q` iff the integer
at wheel index `i` (`3i + 2` for odd `i`, `3i + 1` for even `i`) is
prime, and bit 0 is cleared. -/
theorem c3_is_prime_table (N i : ℕ) (h1 : 1 ≤ i) (h2 : i ≤ Nat.sqrt N / 3) :
    (is_prime (Nat.sqrt N / 3) i = true ↔ Nat.Prime (wval i)) ∧
      is_prime (Nat.sqrt N / 3) 0 = false :=
  ⟨is_prime_char _ i h1 h2, is_prime_zero _⟩

/-- Witness for C3 at `N = 100` (`q = 3`), `i = 1` (the prime 5). -/
theorem c3_is_prime_table_witness :
    ((1:ℕ) ≤ 1 ∧ 1 ≤ Nat.sqrt 100 / 3) ∧
      ((is_prime (Nat.sqrt 100 / 3) 1 = true ↔ Nat.Prime (wval 1)) ∧
        is_prime (Nat.sqrt 100 / 3) 0 = false) := by
  have hs : 3 ≤ Nat.sqrt 100 := Nat.le_sqrt.mpr (by norm_num)
  exact ⟨⟨by omega, by omega⟩, c3_is_prime_table 100 1 (by omega) (by omega)⟩

/-!
Claims C7 and C8: the parallel driver's chunk arithmetic (the C
demonstration's main loop).
-/

/-- `LIMIT_MAX` of the source: `2^64 - 1 - 6`. -/
def LIMIT_MAX : ℕ := 18446744073709551609

/-- Adjusted start `start - start % 6 - 6 + 1` for `start > 5`, else 1. -/
def start_adj (start : ℕ) : ℕ :=
  if start > 5 then start - start % 6 - 6 + 1 else 1

/-- The step-size ladder of the C demonstration:
`step_sz = (stop < 1e12) ? 510510 * 12 : 9699690`, then scaled by the
magnitude bucket of `stop`. -/
def step_sz (stop : ℕ) : ℕ :=
  let base : ℕ := if stop < 10 ^ 12 then 510510 * 12 else 9699690
  if stop ≥ 10 ^ 19 then base * 8
  else if stop ≥ 10 ^ 18 then base * 7
  else if stop ≥ 10 ^ 17 then base * 6
  else if stop ≥ 10 ^ 16 then base * 5
  else if stop ≥ 10 ^ 15 then base * 4
  else if stop ≥ 10 ^ 14 then base * 3
  else if stop ≥ 10 ^ 13 then base * 2
  else base

/-- `num_chunks = (stop - start_adj + step_sz) / step_sz` (C integer
division, i.e. floor). -/
def num_chunks (start stop : ℕ) : ℕ :=
  (stop - start_adj start + step_sz stop) / step_sz stop

/-- Segment lower bound `low = start_adj + step_sz * chunk_id`, computed
in `uint64_t`. -/
def chunk_low (start stop chunk_id : ℕ) : ℕ :=
  (start_adj start + step_sz stop * chunk_id) % 2 ^ 64

/-- Raw `high = low + step_sz - 1` in `uint64_t` (may wrap around near
the top of the 64-bit range). -/
def chunk_high_raw (start stop chunk_id : ℕ) : ℕ :=
  (chunk_low start stop chunk_id + step_sz stop - 1) % 2 ^ 64

/-- Capped `high`: `if (high > stop || high < low) high = stop;`. -/
def chunk_high (start stop chunk_id : ℕ) : ℕ :=
  if stop < chunk_high_raw start stop chunk_id ∨
      chunk_high_raw start stop chunk_id < chunk_low start stop chunk_id
    then stop else chunk_high_raw start stop chunk_id

theorem step_sz_pos (stop : ℕ) : 0 < step_sz stop := by
  simp only [step_sz]
  split_ifs <;> omega

theorem step_sz_le (stop : ℕ) : step_sz stop ≤ 77597520 := by
  simp only [step_sz]
  split_ifs <;> omega

theorem start_adj_le {start : ℕ} (h : 1 ≤ start) : start_adj start ≤ start := by
  unfold start_adj
  split <;> omega

theorem start_adj_pos (start : ℕ) : 1 ≤ start_adj start := by
  unfold start_adj
  split <;> omega

theorem num_chunks_eq (F N : ℕ) :
    num_chunks F N = (N - start_adj F) / step_sz N + 1 := by
  unfold num_chunks
  exact Nat.add_div_right _ (step_sz_pos N)

/-- For a valid chunk id the `uint64_t` computation of `low` does not
wrap, and `low ≤ N`. -/
theorem chunk_low_eq (F N cid : ℕ) (h1 : 1 ≤ F) (h2 : F ≤ N) (h3 : N ≤ LIMIT_MAX)
    (hc : cid < num_chunks F N) :
    chunk_low F N cid = start_adj F + step_sz N * cid ∧
      start_adj F + step_sz N * cid ≤ N := by
  have hsa := start_adj_pos F
  have hsaN : start_adj F ≤ N := le_trans (start_adj_le h1) h2
  have hcid : cid ≤ (N - start_adj F) / step_sz N := by
    rw [num_chunks_eq] at hc
    omega
  have hb : step_sz N * cid ≤ N - start_adj F := by
    have ha : (N - start_adj F) / step_sz N * step_sz N ≤ N - start_adj F :=
      Nat.div_mul_le_self _ _
    have hb1 : step_sz N * ((N - start_adj F) / step_sz N) =
        (N - start_adj F) / step_sz N * step_sz N := Nat.mul_comm _ _
    have hb2 : step_sz N * cid ≤ step_sz N * ((N - start_adj F) / step_sz N) :=
      Nat.mul_le_mul_left _ hcid
    omega
  have hlt : start_adj F + step_sz N * cid < 2 ^ 64 := by
    unfold LIMIT_MAX at h3
    omega
  exact ⟨Nat.mod_eq_of_lt hlt, by omega⟩

/-- The capped `high` equals `min (low + step_sz - 1) N` for valid chunk
ids, including when the `uint64_t` addition wraps. -/
theorem chunk_high_eq (F N cid : ℕ) (h1 : 1 ≤ F) (h2 : F ≤ N) (h3 : N ≤ LIMIT_MAX)
    (hc : cid < num_chunks F N) :
    chunk_high F N cid = min (chunk_low F N cid + step_sz N - 1) N := by
  obtain ⟨hlow, hlowN⟩ := chunk_low_eq F N cid h1 h2 h3 hc
  have hstep1 := step_sz_pos N
  have hstep2 := step_sz_le N
  have hmax : N < 2 ^ 64 := by unfold LIMIT_MAX at h3; omega
  unfold chunk_high chunk_high_raw
  rw [hlow]
  set L := start_adj F + step_sz N * cid with hL
  have hLN : L ≤ N := hlowN
  rcases Nat.lt_or_ge (L + step_sz N - 1) (2 ^ 64) with hw | hw
  · rw [Nat.mod_eq_of_lt hw]
    rcases Nat.lt_or_ge N (L + step_sz N - 1) with hbig | hbig
    · rw [if_pos (Or.inl hbig)]
      omega
    · rw [if_neg (by omega)]
      omega
  · have hwrap : (L + step_sz N - 1) % 2 ^ 64 = L + step_sz N - 1 - 2 ^ 64 := by
      have : L + step_sz N - 1 < 2 * 2 ^ 64 := by omega
      omega
    rw [hwrap]
    rw [if_pos (Or.inr (by omega))]
    omega

/-- C8: for every valid chunk, after the cap
`if (high > stop || high < low) high = stop` the segment bounds satisfy
`low ≤ high ≤ N`, including when the 64-bit computation of
`low + step_sz - 1` wraps around. -/
theorem c8_segment_bounds (F N cid : ℕ) (h1 : 1 ≤ F) (h2 : F ≤ N)
    (h3 : N ≤ LIMIT_MAX) (hc : cid < num_chunks F N) :
    chunk_low F N cid ≤ chunk_high F N cid ∧ chunk_high F N cid ≤ N := by
  obtain ⟨hlow, hlowN⟩ := chunk_low_eq F N cid h1 h2 h3 hc
  rw [chunk_high_eq F N cid h1 h2 h3 hc]
  have hstep1 := step_sz_pos N
  omega

/-- Witness for C8 at `F = 1`, `N = 100`, `chunk_id = 0`. -/
theorem c8_segment_bounds_witness :
    ((1:ℕ) ≤ 1 ∧ (1:ℕ) ≤ 100 ∧ (100:ℕ) ≤ LIMIT_MAX ∧ 0 < num_chunks 1 100) ∧
      (chunk_low 1 100 0 ≤ chunk_high 1 100 0 ∧ chunk_high 1 100 0 ≤ 100) :=
  ⟨⟨by decide, by decide, by decide, by decide⟩,
    c8_segment_bounds 1 100 0 (by decide) (by decide) (by decide) (by decide)⟩

/-- C7 counterexample, refuting the stated formula
`num_chunks = ⌈(N - F_adj + step_sz)/step_sz⌉`: at `F = 1`, `N = 100`
the code computes 1 chunk (floor division), while the true ceiling of
`(N - F_adj + step_sz)/step_sz` is 2 (step_sz does not divide
`N - F_adj = 99`); with 2 chunks the second chunk would be empty,
contradicting the claim's own "no chunk is empty". -/
theorem c7_counterexample :
    num_chunks 1 100 = 1 ∧
      (100 - start_adj 1 + step_sz 100 + (step_sz 100 - 1)) / step_sz 100 = 2 := by
  constructor <;> decide

/-- C7 (amended): the driver creates
`num_chunks = ⌊(N - F_adj)/step_sz⌋ + 1` chunks; chunk `c` covers
`[F_adj + c * step_sz, min (F_adj + c * step_sz + step_sz - 1) N]`;
every integer of `[F_adj, N]` is covered by exactly one chunk, and no
chunk is empty. -/
theorem c7_chunk_partition (F N : ℕ) (h1 : 1 ≤ F) (h2 : F ≤ N)
    (h3 : N ≤ LIMIT_MAX) :
    (num_chunks F N = (N - start_adj F) / step_sz N + 1) ∧
    (∀ cid, cid < num_chunks F N →
      chunk_low F N cid = start_adj F + step_sz N * cid ∧
      chunk_high F N cid = min (chunk_low F N cid + step_sz N - 1) N ∧
      chunk_low F N cid ≤ chunk_high F N cid) ∧
    (∀ v, start_adj F ≤ v → v ≤ N →
      ∃! cid, cid < num_chunks F N ∧
        chunk_low F N cid ≤ v ∧ v ≤ chunk_high F N cid) := by
  have hstep1 := step_sz_pos N
  refine ⟨num_chunks_eq F N, ?_, ?_⟩
  · intro cid hc
    obtain ⟨hlow, hlowN⟩ := chunk_low_eq F N cid h1 h2 h3 hc
    have hhigh := chunk_high_eq F N cid h1 h2 h3 hc
    refine ⟨hlow, hhigh, ?_⟩
    rw [hhigh]
    omega
  · intro v hv1 hv2
    have hcid : (v - start_adj F) / step_sz N < num_chunks F N := by
      rw [num_chunks_eq]
      have : (v - start_adj F) / step_sz N ≤ (N - start_adj F) / step_sz N :=
        Nat.div_le_div_right (by omega)
      omega
    obtain ⟨hlow, hlowN⟩ := chunk_low_eq F N _ h1 h2 h3 hcid
    have hhigh := chunk_high_eq F N _ h1 h2 h3 hcid
    have hdm := Nat.div_add_mod' (v - start_adj F) (step_sz N)
    have hmod : (v - start_adj F) % step_sz N < step_sz N :=
      Nat.mod_lt _ hstep1
    refine ⟨(v - start_adj F) / step_sz N, ⟨hcid, ?_, ?_⟩, ?_⟩
    · rw [hlow]
      have : step_sz N * ((v - start_adj F) / step_sz N) =
          (v - start_adj F) / step_sz N * step_sz N := Nat.mul_comm _ _
      omega
    · rw [hhigh, hlow]
      have : step_sz N * ((v - start_adj F) / step_sz N) =
          (v - start_adj F) / step_sz N * step_sz N := Nat.mul_comm _ _
      omega
    · intro y ⟨hy1, hy2, hy3⟩
      obtain ⟨hylow, hylowN⟩ := chunk_low_eq F N y h1 h2 h3 hy1
      have hyhigh := chunk_high_eq F N y h1 h2 h3 hy1
      rw [hylow] at hy2
      rw [hyhigh, hylow] at hy3
      -- start_adj + step * y ≤ v ≤ start_adj + step * y + step - 1
      have hstep_y : step_sz N * y ≤ v - start_adj F ∧
          v - start_adj F < step_sz N * y + step_sz N := by
        constructor <;> omega
      have : (v - start_adj F) / step_sz N = y := by
        have h1' := hstep_y.1
        have h2' := hstep_y.2
        have := Nat.div_eq_of_lt_le
          (by rw [Nat.mul_comm]; omega : y * step_sz N ≤ v - start_adj F)
          (by rw [Nat.succ_mul, Nat.mul_comm]; omega)
        omega
      omega

/-- Witness for C7 at `F = 1`, `N = 100`. -/
theorem c7_chunk_partition_witness :
    ((1:ℕ) ≤ 1 ∧ (1:ℕ) ≤ 100 ∧ (100:ℕ) ≤ LIMIT_MAX) ∧
      (num_chunks 1 100 = (100 - start_adj 1) / step_sz 100 + 1) :=
  ⟨⟨by decide, by decide, by decide⟩,
    (c7_chunk_partition 1 100 (by decide) (by decide) (by decide)).1⟩

/-!
Claim C9: input validation (`Sandbox::check_numbers`).
-/

/-- `Sandbox::check_numbers` on integer inputs.  Mirrors the three
`die` tests in order: the range form
(`F > 0 && N > 0 && N >= F`), the sum limit
(`die if sum_flag && N > 29505444490`), and the maximum
(`die if min(max_number, N) ne N`).  In the Perl source each failing
test `die`s, ending the process with a nonzero (greater than 1) exit
status before any sieving happens; here `false` stands for "dies". -/
def check_numbers (maxNumber F N : ℕ) (sumFlag : Bool) : Bool :=
  (decide (0 < F) && decide (0 < N) && decide (F ≤ N)) &&
  (!sumFlag || decide (N ≤ 29505444490)) &&
  decide (min maxNumber N = N)

/-- C9: validation rejects exactly the inputs with `F < 1`, `N < F`,
`N > 2^64 - 7`, or sum mode with `N > 29505444490`. -/
theorem c9_validation (F N : ℕ) (sumFlag : Bool) :
    check_numbers LIMIT_MAX F N sumFlag = false ↔
      (F < 1 ∨ N < F ∨ LIMIT_MAX < N ∨
        (sumFlag = true ∧ 29505444490 < N)) := by
  cases sumFlag <;>
    simp [check_numbers, LIMIT_MAX, Nat.min_def] <;> omega

/-!
The segment kernel (`practicalsieve` in `src/algorithm3.c` and the chunk
body of the C demonstration).
-/

/-- The C idiom `x | 1` used in the kernel's value formulas. -/
theorem lor_one_eq (x : ℕ) : x ||| 1 = if x % 2 = 1 then x else x + 1 := by
  apply Nat.eq_of_testBit_eq
  intro i
  rw [Nat.testBit_lor]
  cases i with
  | zero =>
    rw [Nat.testBit_zero, Nat.testBit_zero]
    rcases Nat.mod_two_eq_zero_or_one x with h | h
    · rw [if_neg (by omega)]
      rw [Nat.testBit_zero]
      simp [h]
      omega
    · rw [if_pos h]
      simp [h]
  | succ i =>
    have h1 : Nat.testBit 1 (i + 1) = false := by
      rw [Nat.testBit_add_one]
      simp
    rw [h1, Bool.or_false]
    rcases Nat.mod_two_eq_zero_or_one x with h | h
    · rw [if_neg (by omega), Nat.testBit_add_one, Nat.testBit_add_one]
      have h2 : (x + 1) / 2 = x / 2 := by omega
      rw [h2]
    · rw [if_pos h]

/-- With an even offset, `n_off + ((3*i + 1) | 1)` is the wheel value at
local index `i`. -/
theorem noff_lor_eq {noff : ℕ} (heven : noff % 6 = 0) (i : ℕ) :
    noff + ((3 * i + 1) ||| 1) = noff + wval i := by
  rw [lor_one_eq]
  rcases Nat.mod_two_eq_zero_or_one i with h | h
  · rw [if_pos (by omega), wval_even h]
  · rw [if_neg (by omega), wval_odd h]

/-- The per-chunk sieving loop: for each index `i`, update the Luo state
and, when `is_prime[i]` is set, skip ahead past `j_off` and clear walk
elements up to `M2`. -/
def segLoop (isp : ℕ → Bool) (joff B : ℕ) :
    ℕ → ℕ → (ℕ × ℕ × ℕ) → (ℕ → Bool) → (ℕ → Bool)
  | 0, _, _, s => s
  | r + 1, i, st, s =>
    let u := luoUpd st i
    let s' := if isp i = true then sieveStep s joff B u.1.1 u.2 u.1.2.2 else s
    segLoop isp joff B r (i + 1) u.1 s'

/-- One segment of `practicalsieve(low, high)`: the bit array after the
template copy, the byte-0 patch for `low == 1`, the below-`FROM` clears,
the above-`N` clears, and the sieving loop.  The C globals `FROM_val`,
`FROM_adj`, `N_val`, `pre_sieve`, `is_prime` are explicit parameters. -/
def segmentSieve (Fval Nval Fadj : ℕ) (presv isp : ℕ → Bool)
    (low high : ℕ) : ℕ → Bool :=
  let q := Nat.sqrt high / 3
  let M := (high - low + high % 2) / 3
  let M2 := high / 3
  let noff := low - 1
  let joff := noff / 3
  let memSz := (M + 2 + 7) / 8
  -- memcpy(sieve, pre_sieve, mem_sz); bits outside the allocation are
  -- never read and modelled as 0
  let s0 : ℕ → Bool := fun b => if b < 8 * memSz then presv b else false
  -- if (low == 1) sieve[0] = 0xfe
  let s1 := if low = 1 then setByte0 0xfe s0 else s0
  -- clear composites less than FROM_val (bits 1 and 2)
  let s2 := if low = Fadj ∧ noff + ((3 * 1 + 1) ||| 1) < Fval then
      (if noff + ((3 * 2 + 1) ||| 1) < Fval then
        Function.update (Function.update s1 1 false) 2 false
      else Function.update s1 1 false)
    else s1
  -- clear composites greater than N_val
  let s3 := if high = Nval then
      (let t1 := clearDown (8 * memSz - (M + 2)) s2 (8 * memSz)
       if Nval < noff + ((3 * (M + 1) + 1) ||| 1) then
         (if Nval < noff + ((3 * M + 1) ||| 1) then
           Function.update (Function.update t1 (M + 1) false) M false
         else Function.update t1 (M + 1) false)
       else t1)
    else s2
  -- sieving begins with 19 (i = 6) below 1e12, else with 23 (i = 7)
  if Nval < 10 ^ 12 then
    segLoop isp joff M2 (q + 1 - 6) 6 (96, 2, 34) s3
  else
    segLoop isp joff M2 (q + 1 - 7) 7 (120, 1, 38) s3

/-- Characterization of the sieving loop over indices `i .. i+r-1`, for
local bits `b ≥ 1`: a bit survives iff it was set and no enabled index's
walk lands on it within `B`. -/
theorem segLoop_char (isp : ℕ → Bool) (joff B : ℕ) :
    ∀ (r i : ℕ) (s : ℕ → Bool), 1 ≤ i → ∀ b, 1 ≤ b →
      (segLoop isp joff B r i (luoC (i - 1), luoK (i - 1), luoT (i - 1)) s b = true ↔
        (s b = true ∧ ∀ p, i ≤ p → p < i + r → isp p = true →
          ¬ (wval p ∣ wval (joff + b) ∧ wval p * wval p ≤ wval (joff + b) ∧
            joff + b ≤ B))) := by
  intro r
  induction r with
  | zero =>
    intro i s hi b hb
    simp only [segLoop]
    constructor
    · intro h
      exact ⟨h, fun p h1 h2 => by omega⟩
    · exact fun h => h.1
  | succ r ih =>
    intro i s hi b hb
    rw [segLoop]
    have hupd : luoUpd (luoC (i - 1), luoK (i - 1), luoT (i - 1)) i =
        ((luoC i, luoK i, luoT i), luoIJ i) := by
      have := luoUpd_closed (i - 1)
      rw [show i - 1 + 1 = i from by omega] at this
      exact this
    rw [hupd]
    by_cases hg : isp i = true
    · rw [if_pos hg]
      have hrec := ih (i + 1) (sieveStep s joff B (luoC i) (luoIJ i) (luoT i))
        (by omega) b hb
      rw [show i + 1 - 1 = i from by omega] at hrec
      rw [hrec, sieveStep_char hi s joff B b hb]
      constructor
      · rintro ⟨⟨hs, hnot⟩, hall⟩
        refine ⟨hs, ?_⟩
        intro p h1 h2 h3
        rcases Nat.eq_or_lt_of_le h1 with rfl | hlt
        · intro hc
          exact hnot ⟨hc.1, hc.2.1, hc.2.2⟩
        · exact fun hc => hall p hlt (by omega) h3 hc
      · rintro ⟨hs, hall⟩
        refine ⟨⟨hs, ?_⟩, ?_⟩
        · intro hc
          exact hall i (Nat.le_refl i) (by omega) hg ⟨hc.1, hc.2.1, hc.2.2⟩
        · intro p h1 h2 h3
          exact hall p (by omega) (by omega) h3
    · rw [if_neg hg]
      have hrec := ih (i + 1) s (by omega) b hb
      rw [show i + 1 - 1 = i from by omega] at hrec
      rw [hrec]
      constructor
      · rintro ⟨hs, hall⟩
        refine ⟨hs, ?_⟩
        intro p h1 h2 h3
        rcases Nat.eq_or_lt_of_le h1 with rfl | hlt
        · rw [h3] at hg
          exact absurd rfl hg
        · exact hall p hlt (by omega) h3
      · rintro ⟨hs, hall⟩
        refine ⟨hs, ?_⟩
        intro p h1 h2 h3
        exact hall p (by omega) (by omega) h3

/-- `popcount(sieve, size)`: the number of set bits among the `8 * size`
bit positions of the `size` bytes read by the population count. -/
def popcount (s : ℕ → Bool) (size : ℕ) : ℕ :=
  ((List.range (8 * size)).filter (fun b => s b)).length

/-- `output_primes(sieve, start, low, high, M, n_off)`: 2 and 3 first
when they fall in both the requested range and the chunk, then for odd
`i = 1, 3, ...` up to `M` the bits `i` and `i + 1`, emitted as
`n_off + 3i + 2` and `n_off + 3(i+1) + 1`. -/
def output_primes (s : ℕ → Bool) (start low high : ℕ) (M noff : ℕ) : List ℕ :=
  (if start ≤ 2 ∧ low ≤ 2 ∧ 2 ≤ high then [2] else []) ++
  (if start ≤ 3 ∧ low ≤ 3 ∧ 3 ≤ high then [3] else []) ++
  (List.range' 1 ((M + 1) / 2) 2).flatMap (fun i =>
    (if s i = true then [noff + (3 * i + 2)] else []) ++
    (if s (i + 1) = true then [noff + (3 * (i + 1) + 1)] else []))

/-- The bit indices read by the count / sum / print loop over pairs
`(i, i+1)` for odd `i ≤ M`. -/
def loopReadIdxs (M : ℕ) : List ℕ :=
  (List.range' 1 ((M + 1) / 2) 2).flatMap (fun i => [i, i + 1])

/-- COUNT mode of the C demonstration `practicalsieve(start, stop, 0)`:
2 and 3 are counted up front, then per-chunk popcounts are summed.  The
OpenMP reduction is modelled as a left fold in chunk order, which is
exact because addition is commutative and associative. -/
def practicalsieve_count (start stop : ℕ) : ℕ :=
  let sadj := start_adj start
  let presv := pre_sieve stop sadj (step_sz stop)
  let isp := is_prime (Nat.sqrt stop / 3)
  let base := (if start ≤ 2 ∧ 2 ≤ stop then 1 else 0) +
    (if start ≤ 3 ∧ 3 ≤ stop then 1 else 0)
  (List.range (num_chunks start stop)).foldl
    (fun acc cid =>
      let low := chunk_low start stop cid
      let high := chunk_high start stop cid
      acc + popcount (segmentSieve start stop sadj presv isp low high)
        (((high - low + high % 2) / 3 + 2 + 7) / 8)) base

/-- PRINT mode of the C demonstration `practicalsieve(start, stop, 1)`:
each chunk's `output_primes`, flushed in ascending chunk id (the
`#pragma omp ordered` discipline of the C demonstration, and the
`MCE::relay` ordered display of the Perl driver). -/
def practicalsieve_print (start stop : ℕ) : List ℕ :=
  let sadj := start_adj start
  let presv := pre_sieve stop sadj (step_sz stop)
  let isp := is_prime (Nat.sqrt stop / 3)
  (List.range (num_chunks start stop)).flatMap (fun cid =>
    let low := chunk_low start stop cid
    let high := chunk_high start stop cid
    output_primes (segmentSieve start stop sadj presv isp low high)
      start low high ((high - low + high % 2) / 3) (low - 1))

theorem emit_mem_bounds (s : ℕ → Bool) (noff i : ℕ) {x : ℕ}
    (hx : x ∈ (if s i = true then [noff + (3 * i + 2)] else []) ++
      (if s (i + 1) = true then [noff + (3 * (i + 1) + 1)] else [])) :
    noff + 3 * i + 2 ≤ x ∧ x ≤ noff + 3 * i + 4 := by
  rcases List.mem_append.mp hx with h | h
  · by_cases hs : s i = true
    · rw [if_pos hs] at h
      simp only [List.mem_singleton] at h
      omega
    · rw [if_neg hs] at h
      simp at h
  · by_cases hs : s (i + 1) = true
    · rw [if_pos hs] at h
      simp only [List.mem_singleton] at h
      omega
    · rw [if_neg hs] at h
      simp at h

theorem emit_pairwise (s : ℕ → Bool) (noff i : ℕ) :
    List.Pairwise (· < ·) ((if s i = true then [noff + (3 * i + 2)] else []) ++
      (if s (i + 1) = true then [noff + (3 * (i + 1) + 1)] else [])) := by
  by_cases h1 : s i = true <;> by_cases h2 : s (i + 1) = true <;>
    simp [h1, h2] <;> try omega

/-- The per-chunk emission loop produces a strictly increasing list no
matter which bits are set. -/
theorem emit_flat_pairwise (s : ℕ → Bool) (noff n : ℕ) :
    List.Pairwise (· < ·) ((List.range' 1 n 2).flatMap (fun i =>
      (if s i = true then [noff + (3 * i + 2)] else []) ++
      (if s (i + 1) = true then [noff + (3 * (i + 1) + 1)] else []))) := by
  rw [List.pairwise_flatMap]
  constructor
  · intro a _
    exact emit_pairwise s noff a
  · refine List.Pairwise.imp_of_mem ?_ (List.pairwise_lt_range' 1 n 2 (by omega))
    intro a b _ _ hab x hx y hy
    have hxb := emit_mem_bounds s noff a hx
    have hyb := emit_mem_bounds s noff b hy
    omega

theorem emit_flat_bounds (s : ℕ → Bool) (noff n : ℕ) {x : ℕ}
    (hx : x ∈ (List.range' 1 n 2).flatMap (fun i =>
      (if s i = true then [noff + (3 * i + 2)] else []) ++
      (if s (i + 1) = true then [noff + (3 * (i + 1) + 1)] else []))) :
    noff + 5 ≤ x ∧ x ≤ noff + 3 * (2 * n) + 1 := by
  rw [List.mem_flatMap] at hx
  obtain ⟨i, hi, hxi⟩ := hx
  rw [List.mem_range'] at hi
  obtain ⟨k, hk, rfl⟩ := hi
  have := emit_mem_bounds s noff (1 + 2 * k) hxi
  omega

/-- Each chunk's printed list is strictly increasing, and every element
is 2 (only if `low ≤ 2`), 3 (only if `low ≤ 3`), or a wheel value in
`[low + 4, low + 3M + 3]`. -/
theorem output_primes_sorted (s : ℕ → Bool) (start low high M : ℕ)
    (hlow : 1 ≤ low) :
    List.Pairwise (· < ·) (output_primes s start low high M (low - 1)) ∧
    ∀ x ∈ output_primes s start low high M (low - 1),
      (x = 2 ∧ low ≤ 2) ∨ (x = 3 ∧ low ≤ 3) ∨
        (low + 4 ≤ x ∧ x ≤ low + 3 * M + 3) := by
  have hmem : ∀ x ∈ (List.range' 1 ((M + 1) / 2) 2).flatMap (fun i =>
      (if s i = true then [low - 1 + (3 * i + 2)] else []) ++
      (if s (i + 1) = true then [low - 1 + (3 * (i + 1) + 1)] else [])),
      low + 4 ≤ x ∧ x ≤ low + 3 * M + 3 := by
    intro x hx
    have := emit_flat_bounds s (low - 1) ((M + 1) / 2) hx
    omega
  have hpre : ∀ x ∈ (if start ≤ 2 ∧ low ≤ 2 ∧ 2 ≤ high then [2] else []) ++
      (if start ≤ 3 ∧ low ≤ 3 ∧ 3 ≤ high then [3] else []),
      (x = 2 ∧ low ≤ 2) ∨ (x = 3 ∧ low ≤ 3) := by
    intro x hx
    rcases List.mem_append.mp hx with hx | hx
    · split_ifs at hx with h
      · simp only [List.mem_singleton] at hx
        exact Or.inl ⟨hx, h.2.1⟩
      · simp at hx
    · split_ifs at hx with h
      · simp only [List.mem_singleton] at hx
        exact Or.inr ⟨hx, h.2.1⟩
      · simp at hx
  unfold output_primes
  constructor
  · rw [List.pairwise_append]
    refine ⟨?_, emit_flat_pairwise s (low - 1) ((M + 1) / 2), ?_⟩
    · rw [List.pairwise_append]
      refine ⟨?_, ?_, ?_⟩
      · split_ifs <;> simp
      · split_ifs <;> simp
      · intro a ha b hb
        split_ifs at ha with h
        · simp only [List.mem_singleton] at ha
          split_ifs at hb with h2
          · simp only [List.mem_singleton] at hb
            omega
          · simp at hb
        · simp at ha
    · intro a ha b hb
      have hb' := hmem b hb
      rcases hpre a ha with ⟨rfl, _⟩ | ⟨rfl, _⟩ <;> omega
  · intro x hx
    rcases List.mem_append.mp hx with hx | hx
    · rcases hpre x hx with ⟨hx2, hl⟩ | ⟨hx3, hl⟩
      · exact Or.inl ⟨hx2, hl⟩
      · exact Or.inr (Or.inl ⟨hx3, hl⟩)
    · exact Or.inr (Or.inr (hmem x hx))

theorem step_sz_ge (stop : ℕ) : 6126120 ≤ step_sz stop := by
  simp only [step_sz]
  split_ifs <;> omega

/-- C2: in PRINT mode the emitted sequence is strictly increasing: each
segment emits its primes in ascending wheel-index order (values
`n_off + 3i + 2` for odd `i`, then `n_off + 3(i+1) + 1`), and segment
outputs are flushed in ascending chunk id. -/
theorem c2_print_increasing (F N : ℕ) (h1 : 1 ≤ F) (h2 : F ≤ N)
    (h3 : N ≤ LIMIT_MAX) :
    List.Pairwise (· < ·) (practicalsieve_print F N) := by
  have hlow1 : ∀ cid, cid < num_chunks F N → 1 ≤ chunk_low F N cid := by
    intro cid hcid
    have hcl := chunk_low_eq F N cid h1 h2 h3 hcid
    have hsa := start_adj_pos F
    omega
  simp only [practicalsieve_print]
  rw [List.pairwise_flatMap]
  constructor
  · intro cid hcid
    exact (output_primes_sorted _ F (chunk_low F N cid) (chunk_high F N cid) _
      (hlow1 cid (List.mem_range.mp hcid))).1
  · refine List.Pairwise.imp_of_mem ?_ (List.pairwise_lt_range _)
    intro a b ha hb hab x hx y hy
    have ha' := List.mem_range.mp ha
    have hb' := List.mem_range.mp hb
    have hcla := chunk_low_eq F N a h1 h2 h3 ha'
    have hclb := chunk_low_eq F N b h1 h2 h3 hb'
    have hcha := chunk_high_eq F N a h1 h2 h3 ha'
    have hchb := chunk_high_eq F N b h1 h2 h3 hb'
    have hxb := (output_primes_sorted _ F (chunk_low F N a) (chunk_high F N a) _
      (hlow1 a ha')).2 x hx
    have hyb := (output_primes_sorted _ F (chunk_low F N b) (chunk_high F N b) _
      (hlow1 b hb')).2 y hy
    have hstep := step_sz_ge N
    have hmul : step_sz N * (a + 1) ≤ step_sz N * b :=
      Nat.mul_le_mul_left (step_sz N) (by omega)
    have hmul2 : step_sz N * (a + 1) = step_sz N * a + step_sz N := by ring
    omega

/-- Witness for C2 at `F = 1`, `N = 30`. -/
theorem c2_print_increasing_witness :
    1 ≤ 1 ∧ 1 ≤ 30 ∧ 30 ≤ LIMIT_MAX ∧
      List.Pairwise (· < ·) (practicalsieve_print 1 30) :=
  ⟨by norm_num, by norm_num, by norm_num [LIMIT_MAX],
    c2_print_increasing 1 30 (by norm_num) (by norm_num)
      (by norm_num [LIMIT_MAX])⟩

/-- C10 (amended): all segment-kernel accesses stay inside the allocated
`mem_sz = ⌈(M + 2)/8⌉` bytes: every sieving-loop clear at offset
`j - j_off` with `j_off ≤ j ≤ M2 = ⌊high/3⌋` satisfies
`j - j_off ≤ M + 1 < 8·mem_sz`; the pairwise sum/print loop reads only
bits in `[1, M + 1]`; and the whole bit range `[0, M + 2)` — hence every
bit the count path's `popcount` reads — lies inside the allocation.
(The original claim's "count ... loop reads at most bit `M + 1`" is
corrected: `popcount(sieve, mem_sz)` reads all `8·mem_sz` allocated
bits, including those above `M + 1`; see the counterexample.) -/
theorem c10_access_bounds (low high : ℕ) (hmod : low % 6 = 1)
    (hle : low ≤ high) :
    (∀ j, (low - 1) / 3 ≤ j → j ≤ high / 3 →
      j - (low - 1) / 3 ≤ (high - low + high % 2) / 3 + 1 ∧
      j - (low - 1) / 3 < 8 * (((high - low + high % 2) / 3 + 2 + 7) / 8)) ∧
    (∀ idx ∈ loopReadIdxs ((high - low + high % 2) / 3),
      1 ≤ idx ∧ idx ≤ (high - low + high % 2) / 3 + 1) ∧
    (high - low + high % 2) / 3 + 2 ≤
      8 * (((high - low + high % 2) / 3 + 2 + 7) / 8) := by
  refine ⟨?_, ?_, by omega⟩
  · intro j hj1 hj2
    omega
  · intro idx hidx
    unfold loopReadIdxs at hidx
    rw [List.mem_flatMap] at hidx
    obtain ⟨i, hi, hmem⟩ := hidx
    rw [List.mem_range'] at hi
    obtain ⟨k, hk, rfl⟩ := hi
    rcases List.mem_pair.mp hmem with rfl | rfl <;> omega

/-- Witness for C10 at the segment `low = 1`, `high = 10`. -/
theorem c10_access_bounds_witness :
    1 % 6 = 1 ∧ (1 : ℕ) ≤ 10 ∧
      ((∀ j, (1 - 1) / 3 ≤ j → j ≤ 10 / 3 →
        j - (1 - 1) / 3 ≤ (10 - 1 + 10 % 2) / 3 + 1 ∧
        j - (1 - 1) / 3 < 8 * (((10 - 1 + 10 % 2) / 3 + 2 + 7) / 8)) ∧
      (∀ idx ∈ loopReadIdxs ((10 - 1 + 10 % 2) / 3),
        1 ≤ idx ∧ idx ≤ (10 - 1 + 10 % 2) / 3 + 1) ∧
      (10 - 1 + 10 % 2) / 3 + 2 ≤
        8 * (((10 - 1 + 10 % 2) / 3 + 2 + 7) / 8)) :=
  ⟨by decide, by decide, c10_access_bounds 1 10 (by decide) (by decide)⟩

/-- C10 counterexample to "the count ... loop reads at most bit `M + 1`":
for the real segment `low = 1`, `high = 100` (so `M = 33`,
`mem_sz = 5`), `popcount(sieve, mem_sz)` depends on bit 35, which
exceeds `M + 1 = 34` while lying inside the allocated 40 bits. -/
theorem c10_counterexample :
    (100 - 1 + 100 % 2) / 3 = 33 ∧
    ((100 - 1 + 100 % 2) / 3 + 2 + 7) / 8 = 5 ∧
    33 + 1 < 35 ∧ 35 < 8 * 5 ∧
    popcount (fun _ => false) 5 = 0 ∧
    popcount (Function.update (fun _ => false) 35 true) 5 = 1 := by
  decide

/-- Divisors of a product of two primes. -/
theorem dvd_prime_mul {p q d : ℕ} (hp : Nat.Prime p) (hq : Nat.Prime q)
    (h : d ∣ p * q) : d = 1 ∨ d = p ∨ d = q ∨ d = p * q := by
  by_cases hpd : p ∣ d
  · obtain ⟨e, rfl⟩ := hpd
    have he : e ∣ q := (Nat.mul_dvd_mul_iff_left hp.pos).mp h
    rcases hq.eq_one_or_self_of_dvd e he with rfl | rfl
    · exact Or.inr (Or.inl (mul_one p))
    · exact Or.inr (Or.inr (Or.inr rfl))
  · have hcop : Nat.Coprime d p :=
      ((Nat.Prime.coprime_iff_not_dvd hp).mpr hpd).symm
    have hdq : d ∣ q := hcop.dvd_of_dvd_mul_left h
    rcases hq.eq_one_or_self_of_dvd d hdq with rfl | rfl
    · exact Or.inl rfl
    · exact Or.inr (Or.inr (Or.inl rfl))

/-- `6126133 = 13 · 471241` with `471241` prime: no wheel index `p ≥ 6`
(value `≥ 19`) has both `wval p ∣ 6126133` and `wval p² ≤ 6126133`, so
the sieving loop of the failing segment never clears its bit. -/
theorem c1_no_large_divisor (p : ℕ) (hp : 6 ≤ p) :
    ¬ (wval p ∣ 6126133 ∧ wval p * wval p ≤ 6126133) := by
  rintro ⟨hdvd, hsq⟩
  have h13 : Nat.Prime 13 := by norm_num
  have h47 : Nat.Prime 471241 := by norm_num
  have heq : (6126133 : ℕ) = 13 * 471241 := by norm_num
  rw [heq] at hdvd
  have hw6 : wval 6 = 19 := rfl
  have hge : 19 ≤ wval p := hw6 ▸ wval_le_wval hp
  rcases dvd_prime_mul h13 h47 hdvd with h1 | h1 | h1 | h1
  · omega
  · omega
  · rw [h1] at hsq
    norm_num at hsq
  · rw [h1] at hsq
    norm_num at hsq

/-- C1 is refuted by a code bug: with `F = 12`, `N = 6126133`
(`start_adj = 7`, `step_sz = 6126120`), the second chunk is
`[6126127, 6126133]`, and the kernel leaves bit 2 of its segment set,
although the wheel value that bit denotes, `6126133 = 13 · 471241`, is
composite and lies inside `[F, N]`: the template built at `F_adj = 7`
retains the bit denoting the small prime 13 itself, and copied into a
later chunk that bit denotes `13 + step_sz`, which the sieving loop
(which starts at wheel value 19) never clears.  COUNT mode therefore
reports one prime too many (420919 instead of 420918). -/
theorem c1_count_code_bug :
    start_adj 12 = 7 ∧ step_sz 6126133 = 6126120 ∧
    num_chunks 12 6126133 = 2 ∧
    chunk_low 12 6126133 1 = 6126127 ∧ chunk_high 12 6126133 1 = 6126133 ∧
    wval ((6126127 - 1) / 3 + 2) = 6126133 ∧
    ¬ Nat.Prime 6126133 ∧ 12 ≤ 6126133 ∧
    segmentSieve 12 6126133 7 (pre_sieve 6126133 7 6126120)
      (is_prime (Nat.sqrt 6126133 / 3)) 6126127 6126133 2 = true := by
  refine ⟨by decide, by decide, by decide, by decide, by decide, by decide,
    by norm_num, by norm_num, ?_⟩
  simp only [segmentSieve]
  rw [if_pos (show (6126133 : ℕ) < 10 ^ 12 by norm_num)]
  rw [if_pos trivial]
  rw [if_pos (show (6126133 : ℕ) < 6126127 - 1 +
    (3 * ((6126133 - 6126127 + 6126133 % 2) / 3 + 1) + 1 ||| 1) by decide)]
  rw [if_neg (show ¬ ((6126133 : ℕ) < 6126127 - 1 +
    (3 * ((6126133 - 6126127 + 6126133 % 2) / 3) + 1 ||| 1)) by decide)]
  rw [if_neg (show ¬ ((6126127 : ℕ) = 7 ∧
    (6126127 : ℕ) - 1 + (3 * 1 + 1 ||| 1) < 12) by decide)]
  rw [if_neg (show ¬ ((6126127 : ℕ) = 1) by decide)]
  rw [show (((96 : ℕ), (2 : ℕ), (34 : ℕ)) : ℕ × ℕ × ℕ) =
    (luoC (6 - 1), luoK (6 - 1), luoT (6 - 1)) by decide]
  rw [segLoop_char (is_prime (Nat.sqrt 6126133 / 3)) ((6126127 - 1) / 3)
    (6126133 / 3) (Nat.sqrt 6126133 / 3 + 1 - 6) 6 _ (by norm_num) 2
    (by norm_num)]
  constructor
  · rw [Function.update_apply, if_neg (show ¬ ((2 : ℕ) =
      (6126133 - 6126127 + 6126133 % 2) / 3 + 1) by decide)]
    rw [clearDown_char _ _ _ (by decide) 2]
    refine ⟨?_, by decide⟩
    show (if (2 : ℕ) < 8 * (((6126133 - 6126127 + 6126133 % 2) / 3 + 2 + 7) / 8)
      then pre_sieve 6126133 7 6126120 2 else false) = true
    rw [if_pos (by decide)]
    rw [pre_sieve_char 6126133 7 6126120
      (by rw [if_pos (by norm_num : (6126133 : ℕ) < 10 ^ 12)]; norm_num)
      (by norm_num) 2 (by norm_num) (by norm_num)]
    refine ⟨by norm_num, ?_⟩
    intro p h1 h5
    rw [if_pos (by norm_num : (6126133 : ℕ) < 10 ^ 12)] at h5
    interval_cases p <;> decide
  · intro p hp _ _ hc
    have hwv : wval ((6126127 - 1) / 3 + 2) = 6126133 := by decide
    rw [hwv] at hc
    exact c1_no_large_divisor p hp ⟨hc.1, hc.2.1⟩

end Sandbox
